import Mathlib

/-!
# RatHash: the streaming hash engine of `api/api.go`

A shallow embedding of the Go type `digest` and of its methods `Size`, `BlockSize`,
`New`, `Write`, `Sum`, `Reset` and `initWorkers`, followed by theorems about them.

Modelling decisions.

* A Go `[]byte` is a `List (Fin 256)`.  In the first embedding slices are values: a block
  in the channel carries the bytes it had when it was sent.  What the sharing of backing
  arrays does to these bytes afterwards is the matter of the second embedding (below).
* The map `tree` is a partial function `Nat → Option Bytes`; reading an absent key gives
  the empty slice, as a Go map read gives `nil`.
* The channel `ch` is the list of blocks that were sent and not yet received by a worker,
  with a flag telling whether `close` was called on it.  The worker goroutines of
  `initWorkers` receive the blocks in FIFO order and call `consume` on each.
* `dex` counts dispatched blocks.  It is a 64-bit `uint` in Go; increments are taken in
  `Nat` (2^64 blocks are never dispatched), the decrement wraps at zero as in Go.
* `ln` is a 64-bit `uint`; `Size` converts it to a 64-bit `int`.  In `digest.Sum` the
  allocation `make([]byte, d.ln)` succeeds; `digest.SumAlloc` is `Sum` with the panic of
  `make` for a length over the allocation limit.
* `Reset` does not wait for the workers.  `Reachable` has the states in which `Reset` was
  called with no block left in the channel, `ReachableAny` the states with `Reset` called
  at any time.
* A Go call either returns, panics, or never returns: see `Outcome`.
* `bytesPerBlock`, `consume` and `chacha.XORKeyStream` are not defined in `api/api.go`;
  they are collected in `Env`.
* A second embedding of `Write` (`WriteMem`) keeps slices as windows into backing arrays,
  to see which bytes a block in the channel shares with other slices.
-/

namespace RatHash

/-- A byte slice. -/
abbrev Bytes := List (Fin 256)

/-- The Go type `block` (lines 24-27). -/
structure block where
  dex : Nat
  bytes : Bytes

/-- The Go type of the field `tree`, `map[uint][]byte`. -/
abbrev Tree := Nat → Option Bytes

/-- The Go map read `t[k]`: the zero value `nil` when the key is absent. -/
def Tree.read (t : Tree) (k : Nat) : Bytes := (t k).getD []

/-- The Go map write `t[k] = v`. -/
def Tree.store (t : Tree) (k : Nat) (v : Bytes) : Tree :=
  fun i => if i = k then some v else t i

/-- The Go builtin `delete(t, k)`. -/
def Tree.delete (t : Tree) (k : Nat) : Tree :=
  fun i => if i = k then none else t i

/-- The empty map `map[uint][]byte{}`. -/
def Tree.empty : Tree := fun _ => none

/-- The Go type `digest` (lines 15-22).  `ch` and `closed` stand for the channel `ch`;
the wait group `summing` and the mutex `mapping` have no sequential content. -/
structure digest where
  ln : Nat
  dex : Nat
  ch : List block
  closed : Bool
  tree : Tree
  lag : Bytes

/-- What is used by `api/api.go` and defined elsewhere. -/
structure Env where
  /-- Modelled from the spec: the constant `bytesPerBlock`, "the segmentation unit size in
  bytes (implementation-defined positive constant)". -/
  bytesPerBlock : Nat
  bytesPerBlock_pos : 0 < bytesPerBlock
  /-- Modelled from the spec: the function `F` of `chain[i] = F(block_i.bytes, chain[i-1])`,
  first argument the bytes of the block, second argument the chain value of the
  predecessor. -/
  F : Bytes → Bytes → Bytes
  /-- Modelled from the spec: the "fixed known constant predecessor value" used for the
  block of index 0. -/
  seed : Bytes
  /-- The library function `chacha.XORKeyStream`, with its five arguments in the order of
  the call at line 86; the value is the content of the first argument after the call. -/
  XORKeyStream : Bytes → Bytes → Bytes → Bytes → Nat → Bytes
  /-- A callee writes into the slice it is given and cannot change its length. -/
  XORKeyStream_length : ∀ dst src a b r, (XORKeyStream dst src a b r).length = dst.length

/-- The values a Go `panic` of this file carries. -/
inductive Panic where
  /-- Line 71: `rathash: Sum: key size of %d invalid, must be 24`. -/
  | invalidKeySize (n : Nat)
  /-- The run-time panic of a send on a closed channel. -/
  | sendOnClosedChannel
  /-- The run-time panic of `close` on a closed channel. -/
  | closeOfClosedChannel
  /-- The run-time panic of `make([]byte, n)` for a length it cannot allocate
  (`makeslice: len out of range`). -/
  | makeLenOutOfRange
  deriving DecidableEq

/-- The three ways a method call on a `digest` can end: it returns a value, it panics, or
it never returns.  The first two leave an engine state behind. -/
inductive Outcome (α : Type) where
  | ret (v : α) (d : digest)
  | panicked (p : Panic) (d : digest)
  | blocked

/-- The decrement of a 64-bit `uint`: it wraps at zero. -/
def uintDec (n : Nat) : Nat := if n = 0 then 2 ^ 64 - 1 else n - 1

/-- The conversion `int(x)` of a 64-bit `uint` to a 64-bit `int`. -/
def uintToInt (x : Nat) : Int :=
  if x % 2 ^ 64 < 2 ^ 63 then Int.ofNat (x % 2 ^ 64) else Int.ofNat (x % 2 ^ 64) - 2 ^ 64

/-- The function `KeySize` (line 31). -/
def KeySize : Nat := 24

/-- The method `Size` (line 33). -/
def digest.Size (d : digest) : Int := uintToInt d.ln

/-- The method `BlockSize` (line 35). -/
def digest.BlockSize (P : Env) (_d : digest) : Nat := P.bytesPerBlock

/-- The method `initWorkers` (lines 106-121): a new, empty and open channel, and a new
set of workers receiving from it. -/
def digest.initWorkers (d : digest) : digest :=
  { d with ch := [], closed := false }

/-- The function `New` (lines 37-41). -/
def New (ln : Nat) : digest :=
  digest.initWorkers { ln := ln, dex := 0, ch := [], closed := false, tree := Tree.empty, lag := [] }

/-- Modelled from the spec: the method `consume`, which is called at lines 75, 79 and 117
and defined outside `api/api.go`.  "compute, for block i, a chained digest value
`chain[i] = F(block_i.bytes, chain[i-1])` ... (for i = 0, a fixed known constant predecessor
value is used instead of a lookup)"; "a worker checks for the predecessor's presence, and
if absent, waits ... until it appears, then computes and inserts its own entry".  The value
is `none` when the predecessor is absent: in a sequential run nobody will insert it, and
the call never returns. -/
def digest.consume (P : Env) (d : digest) (b : block) : Option digest :=
  if b.dex = 0 then
    some { d with tree := d.tree.store 0 (P.F b.bytes P.seed) }
  else
    match d.tree (b.dex - 1) with
    | some prev => some { d with tree := d.tree.store b.dex (P.F b.bytes prev) }
    | none => none

/-- One turn of the loop of a worker goroutine (lines 111-118) on an open or closed,
non-empty channel: receive the oldest block and `consume` it. -/
def digest.work (P : Env) (d : digest) : Option digest :=
  match d.ch with
  | [] => some d
  | b :: rest => digest.consume P { d with ch := rest } b

/-- The workers receive and consume the blocks `bs` one after the other. -/
def consumeAll (P : Env) : digest → List block → Option digest
  | d, [] => some d
  | d, b :: bs =>
    match digest.consume P d b with
    | some d1 => consumeAll P d1 bs
    | none => none

/-- The workers run until the channel is empty (lines 111-118, all turns). -/
def digest.workers (P : Env) (d : digest) : Option digest :=
  consumeAll P { d with ch := [] } d.ch

/-- The loop of `Write` (lines 51-55) on the local `buf`, from the counter `dex`: the
blocks sent, the counter and the rest of `buf` at the exit of the loop.  The first argument
bounds the number of turns; `buf.length` turns are enough when `B` is positive. -/
def writeLoop (B : Nat) : Nat → Nat → Bytes → List block × Nat × Bytes
  | 0, dex, buf => ([], dex, buf)
  | fuel + 1, dex, buf =>
    if B ≤ buf.length then
      let r := writeLoop B fuel (dex + 1) (buf.drop B)
      ({ dex := dex, bytes := buf.take B } :: r.1, r.2.1, r.2.2)
    else ([], dex, buf)

/-- The method `Write` (lines 44-61).  The value returned is the pair `(count, err)`, with
`none` for the `nil` error.  A block in the channel has the bytes of `buf[:bytesPerBlock]`
at the moment of the send of line 52; `WriteMem` has the slice itself. -/
def digest.Write (P : Env) (d : digest) (buf : Bytes) : Outcome (Nat × Option Panic) :=
  let count := buf.length
  let buf1 := if 0 < d.lag.length then d.lag ++ buf else buf
  let lag1 := if 0 < d.lag.length then d.lag.take 0 else d.lag
  let r := writeLoop P.bytesPerBlock buf1.length d.dex buf1
  if d.closed = true ∧ P.bytesPerBlock ≤ buf1.length then
    Outcome.panicked Panic.sendOnClosedChannel { d with lag := lag1 }
  else
    let lag2 := if 0 < r.2.2.length then lag1 ++ r.2.2 else lag1
    Outcome.ret (count, none) { d with dex := r.2.1, ch := d.ch ++ r.1, lag := lag2 }

/-- Lines 74-81 of `Sum`: the pending bytes, or the empty input, are consumed as one more
block by the caller itself. -/
def digest.flush (P : Env) (d : digest) : Option digest :=
  if 0 < d.lag.length then
    (digest.consume P d { dex := d.dex, bytes := d.lag }).map (fun x => { x with dex := x.dex + 1 })
  else if d.dex = 0 then
    (digest.consume P d { dex := 0, bytes := [] }).map (fun x => { x with dex := x.dex + 1 })
  else some d

/-- Lines 88-92 of `Sum`: "State alterations, if any, are undone." -/
def digest.undo (d : digest) : digest :=
  if 0 < d.lag.length ∨ d.dex = 0 then
    { d with dex := uintDec d.dex, tree := d.tree.delete (uintDec d.dex) }
  else d

/-- The method `Sum` (lines 63-96).  After `close(d.ch)` the workers receive what is left
in the channel; `consume` at line 75 waits for the chain value of the last block sent, so
that in effect it runs after them, and `d.summing.Wait()` returns when they are done.
The allocation of line 85 succeeds here; `digest.SumAlloc` has its panic. -/
def digest.Sum (P : Env) (d : digest) (key : Bytes) : Outcome Bytes :=
  if d.closed = true then Outcome.panicked Panic.closeOfClosedChannel d
  else
    let d1 := { d with closed := true }
    if key.length ≠ 0 ∧ key.length ≠ 24 then
      Outcome.panicked (Panic.invalidKeySize key.length) d1
    else
      let key1 : Bytes := if key.length = 0 then List.replicate 24 0 else key
      match (digest.workers P d1).bind (digest.flush P) with
      | none => Outcome.blocked
      | some d3 =>
        let final : Bytes := List.replicate d3.ln 0
        let final1 := P.XORKeyStream final final key1 (d3.tree.read (uintDec d3.dex)) 8
        Outcome.ret final1 (digest.initWorkers (digest.undo d3))

/-- The method `Reset` (lines 98-104). -/
def digest.Reset (d : digest) : digest :=
  { d with dex := 0, lag := [], tree := Tree.empty }

/-! ## Auxiliary definitions -/

/-- The value returned by a call, if it returned. -/
def Outcome.value {α : Type} : Outcome α → Option α
  | Outcome.ret v _ => some v
  | Outcome.panicked _ _ => none
  | Outcome.blocked => none

/-- The panic raised by a call, if it panicked. -/
def Outcome.panic {α : Type} : Outcome α → Option Panic
  | Outcome.ret _ _ => none
  | Outcome.panicked p _ => some p
  | Outcome.blocked => none

/-- The engine state a call leaves behind, whether it returned or panicked. -/
def Outcome.state {α : Type} : Outcome α → Option digest
  | Outcome.ret _ d => some d
  | Outcome.panicked _ d => some d
  | Outcome.blocked => none

/-- The outcome with the returned value dropped. -/
def Outcome.void {α : Type} : Outcome α → Outcome Unit
  | Outcome.ret _ d => Outcome.ret () d
  | Outcome.panicked p d => Outcome.panicked p d
  | Outcome.blocked => Outcome.blocked

/-- Sequencing of calls: the next call is made on the state the first call returned with;
a panic or a call that never returns ends the sequence. -/
def Outcome.andThen {α β : Type} (o : Outcome α) (f : digest → Outcome β) : Outcome β :=
  match o with
  | Outcome.ret _ d => f d
  | Outcome.panicked p d => Outcome.panicked p d
  | Outcome.blocked => Outcome.blocked

/-- The chunk `c` and then the chunks `cs` are written by one call of `Write` each. -/
def writeChunks (P : Env) (d : digest) (c : Bytes) : List Bytes → Outcome Unit
  | [] => (digest.Write P d c).void
  | c1 :: cs => (digest.Write P d c).andThen (fun d1 => writeChunks P d1 c1 cs)

/-- The loop of `Write` with as many turns as `buf` has bytes. -/
def segment (B : Nat) (dex : Nat) (buf : Bytes) : List block × Nat × Bytes :=
  writeLoop B buf.length dex buf

/-- The chain value that `consume` combines with the block of index `j`. -/
def prevChain (P : Env) (t : Tree) (j : Nat) : Bytes :=
  if j = 0 then P.seed else t.read (j - 1)

/-- The table `t` after the chain values of consecutive blocks with bytes `bs` were
stored from index `j` on, `c` being the chain value before the first of them. -/
def chainStore (P : Env) : Tree → Nat → Bytes → List Bytes → Tree
  | t, _, _, [] => t
  | t, j, c, b :: bs => chainStore P (t.store j (P.F b c)) (j + 1) (P.F b c) bs

/-- The chain value of the last block of the computation, read in a state in which the
workers have consumed every block sent: the pending bytes make the last block when there
are some, the empty block is the last block when nothing was sent, and otherwise the last
block is the last one sent. -/
def lastChain (P : Env) (d : digest) : Bytes :=
  if 0 < d.lag.length then P.F d.lag (prevChain P d.tree d.dex)
  else if d.dex = 0 then P.F [] P.seed
  else d.tree.read (d.dex - 1)

/-- The table of `d` once the workers have consumed the blocks that are in the channel. -/
def settled (P : Env) (d : digest) : Tree :=
  chainStore P d.tree (d.dex - d.ch.length) (prevChain P d.tree (d.dex - d.ch.length))
    (d.ch.map block.bytes)

/-- The state in which a call of `Sum` that returns leaves the engine `d`. -/
def afterSum (P : Env) (d : digest) : digest :=
  if 0 < d.lag.length ∨ 0 < d.dex then
    { d with ch := [], closed := false, tree := settled P d }
  else
    { d with ch := [], closed := false, dex := 1, tree := (settled P d).store 0 (P.F [] P.seed) }

/-- The key that `Sum` passes on: 24 zero bytes for an empty key (lines 67-69). -/
def effectiveKey (key : Bytes) : Bytes :=
  if key.length = 0 then List.replicate 24 0 else key

/-- The engine states reached from `New ln` by calls of `Write` and `Sum` that return, by
turns of the workers, and by calls of `Reset` made when the workers have received every
block sent.  `Reset` itself does not wait for the workers: `ReachableAny` has the states
with `Reset` called at any time. -/
inductive Reachable (P : Env) (ln : Nat) : digest → Prop where
  | new : Reachable P ln (New ln)
  | write (d d1 : digest) (buf : Bytes) (r : Nat × Option Panic) :
      Reachable P ln d → digest.Write P d buf = Outcome.ret r d1 → Reachable P ln d1
  | work (d d1 : digest) : Reachable P ln d → digest.work P d = some d1 → Reachable P ln d1
  | sum (d d1 : digest) (key out : Bytes) :
      Reachable P ln d → digest.Sum P d key = Outcome.ret out d1 → Reachable P ln d1
  | reset (d : digest) : Reachable P ln d → d.ch = [] → Reachable P ln (digest.Reset d)

/-- The invariant of the reachable states: the channel is open, the blocks in it carry
the last indexes assigned, in order, the table holds exactly the indexes below them, and
the pending bytes do not fill a block. -/
structure Inv (P : Env) (d : digest) : Prop where
  isOpen : d.closed = false
  len_le : d.ch.length ≤ d.dex
  idx : d.ch.map block.dex = List.range' (d.dex - d.ch.length) d.ch.length
  dense : ∀ i, (d.tree i).isSome = true ↔ i < d.dex - d.ch.length
  lag_lt : d.lag.length < P.bytesPerBlock

/-- The consecutive `B`-byte chunks of `I`, the last one shorter when the length of `I` is
not a multiple of `B`; no chunk for the empty input.  The first argument bounds the
number of chunks. -/
def chunks (B : Nat) : Nat → Bytes → List Bytes
  | 0, _ => []
  | fuel + 1, I => if I.length = 0 then [] else I.take B :: chunks B fuel (I.drop B)

/-- The blocks of the serial reference: the chunks of `I`, and a single empty block when
`I` is empty. -/
def refBlocks (B : Nat) (I : Bytes) : List Bytes :=
  if I.length = 0 then [[]] else chunks B I.length I

/-- The chain of the serial reference: `c_0 = F(block_0, seed)`, `c_i = F(block_i, c_(i-1))`,
and the value is the chain value of the last block. -/
def refChain (P : Env) (blocks : List Bytes) : Bytes :=
  blocks.foldl (fun c b => P.F b c) P.seed

/-- The serial reference of the whole hash. -/
def refHash (P : Env) (ln : Nat) (K I : Bytes) : Bytes :=
  P.XORKeyStream (List.replicate ln 0) (List.replicate ln 0) (effectiveKey K)
    (refChain P (refBlocks P.bytesPerBlock I)) 8

/-- A small instance of `Env` on which the engine can be evaluated: blocks of two bytes,
a chain function that appends the length and the bytes of the block to the previous
chain value, and a key stream that adds its two byte arguments position by position. -/
def demoEnv : Env where
  bytesPerBlock := 2
  bytesPerBlock_pos := by decide
  F := fun b p => p ++ [Fin.ofNat b.length] ++ b
  seed := []
  XORKeyStream := fun dst _ a b _ => (List.range dst.length).map (fun i => a.getD i 0 + b.getD i 0)
  XORKeyStream_length := by intros; simp

/-- A second small instance of `Env`: as `demoEnv`, with a chain function that puts a 1
in front of the previous chain value followed by the bytes of the block, so that the chain
value of an empty block differs from its predecessor. -/
def demoEnv2 : Env :=
  { demoEnv with F := fun b p => 1 :: (p ++ b) }

/-- The block that `Sum` consumes itself at lines 74-81, if any: the pending bytes with the
index `dex` when there are some, the empty block of index 0 when `dex` is 0, and none
otherwise. -/
def finalBlock (d : digest) : Option block :=
  if 0 < d.lag.length then some { dex := d.dex, bytes := d.lag }
  else if d.dex = 0 then some { dex := 0, bytes := [] }
  else none

/-- The state in which `Sum` reads `d.tree[d.dex-1]` at line 86: the channel is closed, the
workers have consumed what was in it, and lines 74-81 are done.  The value is `none` when
this point is not reached. -/
def digest.atRead (P : Env) (d : digest) : Option digest :=
  (digest.workers P { d with closed := true }).bind (digest.flush P)

/-- The output of `New(ln); Write(I); Sum(K)`, if both calls return. -/
def hashOf (P : Env) (ln : Nat) (I K : Bytes) : Option Bytes :=
  ((digest.Write P (New ln) I).andThen (fun d => digest.Sum P d K)).value

/-- The method `Sum` (lines 63-96) with the allocation of line 85: `make([]byte, d.ln)`
panics when `d.ln` is over `maxAlloc`, the largest length that `make` can allocate, which
depends on the platform and on the memory at hand.  The panic leaves the engine as lines
66-82 made it: channel closed, no workers, lines 74-81 not undone.  `digest.Sum` is this
method for the lengths that `make` can allocate. -/
def digest.SumAlloc (P : Env) (maxAlloc : Nat) (d : digest) (key : Bytes) : Outcome Bytes :=
  if d.closed = true then Outcome.panicked Panic.closeOfClosedChannel d
  else
    let d1 := { d with closed := true }
    if key.length ≠ 0 ∧ key.length ≠ 24 then
      Outcome.panicked (Panic.invalidKeySize key.length) d1
    else
      let key1 : Bytes := if key.length = 0 then List.replicate 24 0 else key
      match (digest.workers P d1).bind (digest.flush P) with
      | none => Outcome.blocked
      | some d3 =>
        if maxAlloc < d3.ln then Outcome.panicked Panic.makeLenOutOfRange d3
        else
          let final : Bytes := List.replicate d3.ln 0
          let final1 := P.XORKeyStream final final key1 (d3.tree.read (uintDec d3.dex)) 8
          Outcome.ret final1 (digest.initWorkers (digest.undo d3))

/-- The engine states reached from `New ln` by calls of `Write` and `Sum` that return, by
turns of the workers, and by calls of `Reset` at any time, also with blocks left in the
channel. -/
inductive ReachableAny (P : Env) (ln : Nat) : digest → Prop where
  | new : ReachableAny P ln (New ln)
  | write (d d1 : digest) (buf : Bytes) (r : Nat × Option Panic) :
      ReachableAny P ln d → digest.Write P d buf = Outcome.ret r d1 → ReachableAny P ln d1
  | work (d d1 : digest) : ReachableAny P ln d → digest.work P d = some d1 → ReachableAny P ln d1
  | sum (d d1 : digest) (key out : Bytes) :
      ReachableAny P ln d → digest.Sum P d key = Outcome.ret out d1 → ReachableAny P ln d1
  | reset (d : digest) : ReachableAny P ln d → ReachableAny P ln (digest.Reset d)

/-- Whether a call never returns. -/
def Outcome.isBlocked {α : Type} : Outcome α → Bool
  | Outcome.ret _ _ => false
  | Outcome.panicked _ _ => false
  | Outcome.blocked => true

/-- The indexes below `n` that are keys of the table `t`. -/
def Tree.keysBelow (t : Tree) (n : Nat) : List Nat :=
  (List.range n).filter (fun i => (t i).isSome)

/-! ### `Write` with slices as references

In the definitions above a `[]byte` is its content.  The definitions below keep what a Go
slice is, a window into a backing array, so that two slices can share bytes. -/

/-- A Go slice: `len` bytes of the backing array `arr` from position `off` on, with `cap`
bytes of the array available from `off` on.  The `nil` slice has `len` and `cap` 0. -/
structure Slice where
  arr : Nat
  off : Nat
  len : Nat
  cap : Nat

/-- The memory: the content of the backing arrays, by number. -/
abbrev Memory := List Bytes

/-- The bytes that the slice `s` denotes in the memory `m`. -/
def Memory.load (m : Memory) (s : Slice) : Bytes :=
  ((m.getD s.arr []).drop s.off).take s.len

/-- The assignments `a[pos+i] = v[i]` to the backing array `a`. -/
def Memory.store (m : Memory) (a pos : Nat) (v : Bytes) : Memory :=
  m.set a ((m.getD a []).take pos ++ v ++ (m.getD a []).drop (pos + v.length))

/-- The slice expression `s[:n]`. -/
def Slice.upTo (s : Slice) (n : Nat) : Slice := { s with len := n }

/-- The slice expression `s[n:]`. -/
def Slice.since (s : Slice) (n : Nat) : Slice :=
  { arr := s.arr, off := s.off + n, len := s.len - n, cap := s.cap - n }

/-- The Go builtin `append(s, t...)`: the bytes of `t` are written behind those of `s` in
the backing array of `s` when its capacity suffices, and a new backing array, of capacity
`newCap` of the length needed, receives the bytes of both otherwise. -/
def goAppend (newCap : Nat → Nat) (m : Memory) (s t : Slice) : Memory × Slice :=
  if s.len + t.len ≤ s.cap then
    (m.store s.arr (s.off + s.len) (m.load t), { s with len := s.len + t.len })
  else
    (m ++ [m.load s ++ m.load t ++
        List.replicate (newCap (s.len + t.len) - (s.len + t.len)) 0],
      { arr := m.length, off := 0, len := s.len + t.len,
        cap := max (newCap (s.len + t.len)) (s.len + t.len) })

/-- The Go type `block` (lines 24-27), its field `bytes` being a slice. -/
structure memBlock where
  dex : Nat
  bytes : Slice

/-- The fields of the Go type `digest` that `Write` uses, `lag` being a slice and the
channel holding the blocks sent. -/
structure memDigest where
  dex : Nat
  ch : List memBlock
  lag : Slice

/-- The loop of `Write` (lines 51-55) on slices; the first argument bounds the number of
turns. -/
def writeLoopMem (B : Nat) : Nat → Nat → Slice → List memBlock × Nat × Slice
  | 0, dex, buf => ([], dex, buf)
  | fuel + 1, dex, buf =>
    if B ≤ buf.len then
      let r := writeLoopMem B fuel (dex + 1) (buf.since B)
      ({ dex := dex, bytes := buf.upTo B } :: r.1, r.2.1, r.2.2)
    else ([], dex, buf)

/-- The method `Write` (lines 44-61) on slices, the channel being open: the memory and the
engine after the call, and the count returned. -/
def WriteMem (P : Env) (newCap : Nat → Nat) (m : Memory) (d : memDigest) (buf : Slice) :
    Memory × memDigest × Nat :=
  let count := buf.len
  let a := if 0 < d.lag.len then goAppend newCap m d.lag buf else (m, buf)
  let lag1 := if 0 < d.lag.len then d.lag.upTo 0 else d.lag
  let r := writeLoopMem P.bytesPerBlock a.2.len d.dex a.2
  let b := if 0 < r.2.2.len then goAppend newCap a.1 lag1 r.2.2 else (a.1, lag1)
  (b.1, { dex := r.2.1, ch := d.ch ++ r.1, lag := b.2 }, count)

/-- The capacity of a new backing array of up to 8 bytes is 8, the smallest size the Go
allocator hands out; longer arrays get the length needed here. -/
def smallCap (n : Nat) : Nat := max n 8

/-- The engine of `New`, as far as `Write` uses it: no block sent, `lag` the `nil` slice. -/
def memNew : memDigest :=
  { dex := 0, ch := [], lag := { arr := 0, off := 0, len := 0, cap := 0 } }

/-- The bytes that the blocks in the channel denote in the memory `m`, with their
indexes. -/
def queued (m : Memory) (d : memDigest) : List (Nat × Bytes) :=
  d.ch.map (fun b => (b.dex, m.load b.bytes))

/-- The calls `Write(b)` for the slices `b` of `bufs`, one after the other, from the memory
`m` and the engine `d`: the memory and the engine after the last call. -/
def writesMem (P : Env) (newCap : Nat → Nat) : Memory → memDigest → List Slice → Memory × memDigest
  | m, d, [] => (m, d)
  | m, d, b :: bs =>
    writesMem P newCap (WriteMem P newCap m d b).1 (WriteMem P newCap m d b).2.1 bs

/-- The blocks in the channel of the engine of the first part, with their indexes. -/
def digest.queued (d : digest) : List (Nat × Bytes) :=
  d.ch.map (fun b => (b.dex, b.bytes))

/-- The engine that the workers and `Sum` find when they read the blocks in the channel
and `lag` in the memory `m`, no block having been consumed yet. -/
def memDigest.view (m : Memory) (d : memDigest) (ln : Nat) : digest :=
  { ln := ln, dex := d.dex, ch := d.ch.map (fun b => { dex := b.dex, bytes := m.load b.bytes }),
    closed := false, tree := Tree.empty, lag := m.load d.lag }

/-! ## The loop of `Write` -/

theorem writeLoop_fuel2 (B : Nat) (hB : 0 < B) :
    ∀ (fuel fuel2 dex : Nat) (buf : Bytes), buf.length ≤ fuel → buf.length ≤ fuel2 →
      writeLoop B fuel dex buf = writeLoop B fuel2 dex buf := by
  intro fuel
  induction fuel with
  | zero =>
    intro fuel2 dex buf h _
    have h0 : ¬ B ≤ buf.length := by omega
    cases fuel2 with
    | zero => rfl
    | succ k => simp [writeLoop, h0]
  | succ n ih =>
    intro fuel2 dex buf h h2
    by_cases hlen : B ≤ buf.length
    · cases fuel2 with
      | zero => omega
      | succ k =>
        have hd : (buf.drop B).length ≤ n := by simp [List.length_drop]; omega
        have hd2 : (buf.drop B).length ≤ k := by simp [List.length_drop]; omega
        simp only [writeLoop, hlen, if_true]
        rw [ih k (dex + 1) (buf.drop B) hd hd2]
    · cases fuel2 with
      | zero => simp [writeLoop, hlen]
      | succ k => simp [writeLoop, hlen]

theorem writeLoop_fuel (B : Nat) (hB : 0 < B) (fuel dex : Nat) (buf : Bytes)
    (h : buf.length ≤ fuel) : writeLoop B fuel dex buf = segment B dex buf :=
  writeLoop_fuel2 B hB fuel buf.length dex buf h (Nat.le_refl _)

theorem segment_lt (B : Nat) (dex : Nat) (buf : Bytes) (h : ¬ B ≤ buf.length) :
    segment B dex buf = ([], dex, buf) := by
  unfold segment
  cases hb : buf.length with
  | zero => simp [writeLoop]
  | succ m => simp [writeLoop]; omega

theorem segment_ge (B : Nat) (hB : 0 < B) (dex : Nat) (buf : Bytes) (h : B ≤ buf.length) :
    segment B dex buf =
      ({ dex := dex, bytes := buf.take B } :: (segment B (dex + 1) (buf.drop B)).1,
        (segment B (dex + 1) (buf.drop B)).2.1, (segment B (dex + 1) (buf.drop B)).2.2) := by
  obtain ⟨m, hm⟩ : ∃ m, buf.length = m + 1 := ⟨buf.length - 1, by omega⟩
  have hd2 : (buf.drop B).length ≤ m := by simp [List.length_drop]; omega
  have e : segment B dex buf = writeLoop B (m + 1) dex buf := by unfold segment; rw [hm]
  rw [e]
  simp only [writeLoop, h, if_true]
  rw [writeLoop_fuel B hB m (dex + 1) (buf.drop B) hd2]

/-- What the loop of `Write` does, by induction on the number of bytes. -/
theorem segment_spec (B : Nat) (hB : 0 < B) :
    ∀ (n : Nat) (dex : Nat) (buf : Bytes), buf.length = n →
      (segment B dex buf).1.length = buf.length / B ∧
      (segment B dex buf).1.map block.dex = List.range' dex (buf.length / B) ∧
      (∀ b ∈ (segment B dex buf).1, b.bytes.length = B) ∧
      ((segment B dex buf).1.map block.bytes).flatten ++ (segment B dex buf).2.2 = buf ∧
      (segment B dex buf).2.1 = dex + buf.length / B ∧
      (segment B dex buf).2.2.length = buf.length % B := by
  intro n
  induction n using Nat.strong_induction_on with
  | _ n ih =>
    intro dex buf hn
    by_cases h : B ≤ buf.length
    · have hd : (buf.drop B).length = buf.length - B := by simp
      have hlt : (buf.drop B).length < n := by omega
      obtain ⟨h1, h2, h3, h4, h5, h6⟩ := ih _ hlt (dex + 1) (buf.drop B) rfl
      have hq : buf.length / B = (buf.length - B) / B + 1 := by
        rw [Nat.div_eq_sub_div hB h]
      have hr : buf.length % B = (buf.length - B) % B := by
        rw [Nat.mod_eq_sub_mod h]
      rw [segment_ge B hB dex buf h]
      rw [hd] at h1 h2 h5 h6
      refine ⟨?_, ?_, ?_, ?_, ?_, ?_⟩
      · simp [h1, hq]
      · simp only [List.map_cons, h2, hq]
        rw [List.range'_succ]
      · intro b hb
        rcases List.mem_cons.mp hb with rfl | hb
        · simp; omega
        · exact h3 b hb
      · simp only [List.map_cons, List.flatten_cons, List.append_assoc, h4]
        exact List.take_append_drop B buf
      · simp only [h5, hq]; omega
      · simp only [h6, hr]
    · rw [segment_lt B dex buf h]
      have hlt : buf.length < B := by omega
      simp [Nat.div_eq_of_lt hlt, Nat.mod_eq_of_lt hlt]

theorem segment_append (B : Nat) (hB : 0 < B) :
    ∀ (n : Nat) (dex : Nat) (x y : Bytes), x.length = n →
      segment B dex (x ++ y) =
        ((segment B dex x).1 ++ (segment B (segment B dex x).2.1 ((segment B dex x).2.2 ++ y)).1,
          (segment B (segment B dex x).2.1 ((segment B dex x).2.2 ++ y)).2.1,
          (segment B (segment B dex x).2.1 ((segment B dex x).2.2 ++ y)).2.2) := by
  intro n
  induction n using Nat.strong_induction_on with
  | _ n ih =>
    intro dex x y hn
    by_cases h : B ≤ x.length
    · have hxy : B ≤ (x ++ y).length := by simp; omega
      have hlt : (x.drop B).length < n := by simp; omega
      have ht : (x ++ y).take B = x.take B := List.take_append_of_le_length h
      have hd : (x ++ y).drop B = x.drop B ++ y := List.drop_append_of_le_length h
      rw [segment_ge B hB dex (x ++ y) hxy, segment_ge B hB dex x h, ht, hd,
        ih _ hlt (dex + 1) (x.drop B) y rfl]
      simp
    · rw [segment_lt B dex x h]
      simp

/-! ## The method `Write` -/

/-- The method `Write` in terms of the bytes `d.lag ++ buf`. -/
theorem Write_eq (P : Env) (d : digest) (buf : Bytes) :
    digest.Write P d buf =
      if d.closed = true ∧ P.bytesPerBlock ≤ d.lag.length + buf.length then
        Outcome.panicked Panic.sendOnClosedChannel { d with lag := [] }
      else
        Outcome.ret (buf.length, none)
          { d with dex := (segment P.bytesPerBlock d.dex (d.lag ++ buf)).2.1,
                   ch := d.ch ++ (segment P.bytesPerBlock d.dex (d.lag ++ buf)).1,
                   lag := (segment P.bytesPerBlock d.dex (d.lag ++ buf)).2.2 } := by
  have hrest : ∀ r : Bytes, (if 0 < r.length then r else []) = r := by
    intro r
    cases r with
    | nil => simp
    | cons a r => simp
  cases hl : d.lag with
  | nil => simp [digest.Write, hl, segment, hrest]
  | cons a l =>
    have e : l.length + 1 + buf.length = l.length + buf.length + 1 := by omega
    simp [digest.Write, hl, segment, hrest, e]

theorem Write_open (P : Env) (d : digest) (buf : Bytes) (h : d.closed = false) :
    digest.Write P d buf =
      Outcome.ret (buf.length, none)
        { d with dex := (segment P.bytesPerBlock d.dex (d.lag ++ buf)).2.1,
                 ch := d.ch ++ (segment P.bytesPerBlock d.dex (d.lag ++ buf)).1,
                 lag := (segment P.bytesPerBlock d.dex (d.lag ++ buf)).2.2 } := by
  rw [Write_eq]; simp [h]

theorem Write_then_Write (P : Env) (d : digest) (a b : Bytes) :
    ((digest.Write P d a).andThen (fun d1 => digest.Write P d1 b)).void
      = (digest.Write P d (a ++ b)).void := by
  have hB := P.bytesPerBlock_pos
  have happ := segment_append P.bytesPerBlock hB (d.lag ++ a).length d.dex (d.lag ++ a) b rfl
  rw [List.append_assoc] at happ
  rw [Write_eq P d a, Write_eq P d (a ++ b)]
  by_cases hc : d.closed = true
  · by_cases h1 : P.bytesPerBlock ≤ d.lag.length + a.length
    · have h2 : P.bytesPerBlock ≤ d.lag.length + (a.length + b.length) := by omega
      simp [hc, h1, h2, Outcome.andThen, Outcome.void]
    · have h1c : ¬ P.bytesPerBlock ≤ (d.lag ++ a).length := by simpa using h1
      have hs := segment_lt P.bytesPerBlock d.dex (d.lag ++ a) h1c
      by_cases h2 : P.bytesPerBlock ≤ d.lag.length + (a.length + b.length)
      · have h3 : P.bytesPerBlock ≤ d.lag.length + a.length + b.length := by omega
        simp [hc, h1, h2, h3, Outcome.andThen, Outcome.void, hs, Write_eq]
      · have h3 : ¬ P.bytesPerBlock ≤ d.lag.length + a.length + b.length := by omega
        simp [hc, h1, h2, h3, Outcome.andThen, Outcome.void, hs, Write_eq]
  · have hc2 : d.closed = false := by simpa using hc
    simp [hc2, Outcome.andThen, Outcome.void, Write_eq, happ, List.append_assoc]

theorem writeChunks_eq (P : Env) :
    ∀ (cs : List Bytes) (d : digest) (c : Bytes),
      writeChunks P d c cs = (digest.Write P d (c ++ cs.flatten)).void := by
  intro cs
  induction cs with
  | nil => intro d c; simp [writeChunks]
  | cons c1 cs ih =>
    intro d c
    rw [writeChunks, List.flatten_cons, ← Write_then_Write]
    cases digest.Write P d c with
    | ret v d1 => simp [Outcome.andThen, ih]
    | panicked p d1 => simp [Outcome.andThen, Outcome.void]
    | blocked => simp [Outcome.andThen, Outcome.void]

/-! ## The workers and the chain table -/

theorem Tree.store_same (t : Tree) (k : Nat) (v : Bytes) : (t.store k v) k = some v := by
  simp [Tree.store]

theorem Tree.store_other (t : Tree) (k i : Nat) (v : Bytes) (h : i ≠ k) :
    (t.store k v) i = t i := by
  simp [Tree.store, h]

theorem Tree.delete_store (t : Tree) (k : Nat) (v : Bytes) (h : t k = none) :
    (t.store k v).delete k = t := by
  funext i
  by_cases hi : i = k
  · simp [Tree.delete, hi, h]
  · simp [Tree.delete, Tree.store, hi]

theorem prevChain_store (P : Env) (t : Tree) (j : Nat) (v : Bytes) :
    prevChain P (t.store j v) (j + 1) = v := by
  simp [prevChain, Tree.read, Tree.store]

theorem chainStore_below (P : Env) :
    ∀ (bs : List Bytes) (t : Tree) (j : Nat) (c : Bytes) (i : Nat), i < j →
      chainStore P t j c bs i = t i := by
  intro bs
  induction bs with
  | nil => intro t j c i _; rfl
  | cons b bs ih =>
    intro t j c i h
    rw [chainStore, ih _ _ _ i (by omega), Tree.store_other _ _ _ _ (by omega)]

theorem chainStore_isSome (P : Env) :
    ∀ (bs : List Bytes) (t : Tree) (j : Nat) (c : Bytes) (i : Nat),
      (chainStore P t j c bs i).isSome = true ↔
        ((t i).isSome = true ∨ (j ≤ i ∧ i < j + bs.length)) := by
  intro bs
  induction bs with
  | nil => intro t j c i; simp [chainStore]
  | cons b bs ih =>
    intro t j c i
    rw [chainStore, ih]
    by_cases hi : i = j
    · subst hi
      simp [Tree.store]
    · rw [Tree.store_other _ _ _ _ hi]
      simp only [List.length_cons]
      constructor
      · rintro (h | h)
        · exact Or.inl h
        · exact Or.inr (by omega)
      · rintro (h | h)
        · exact Or.inl h
        · exact Or.inr (by omega)

theorem chainStore_prev (P : Env) :
    ∀ (bs : List Bytes) (t : Tree) (j : Nat) (c : Bytes), c = prevChain P t j →
      prevChain P (chainStore P t j c bs) (j + bs.length) = bs.foldl (fun c b => P.F b c) c := by
  intro bs
  induction bs with
  | nil => intro t j c h; simp [chainStore, h]
  | cons b bs ih =>
    intro t j c _
    have e : j + (b :: bs).length = (j + 1) + bs.length := by simp; omega
    rw [chainStore, e, ih _ _ _ (prevChain_store P t j _).symm]
    rfl

/-- The workers consume consecutive blocks whose predecessor is in the table: the result
is the table with their chain values stored. -/
theorem consumeAll_eq (P : Env) :
    ∀ (bs : List block) (d : digest) (j : Nat),
      bs.map block.dex = List.range' j bs.length →
      (j = 0 ∨ (d.tree (j - 1)).isSome = true) →
      consumeAll P d bs =
        some { d with tree := chainStore P d.tree j (prevChain P d.tree j) (bs.map block.bytes) } := by
  intro bs
  induction bs with
  | nil => intro d j _ _; rfl
  | cons b bs ih =>
    intro d j hidx hprev
    simp only [List.map_cons, List.length_cons, List.range'_succ, List.cons.injEq] at hidx
    obtain ⟨hb, hrest⟩ := hidx
    have hstep : digest.consume P d b =
        some { d with tree := d.tree.store j (P.F b.bytes (prevChain P d.tree j)) } := by
      by_cases hj : j = 0
      · simp [digest.consume, hb, hj, prevChain]
      · rcases hprev with h0 | hs
        · exact absurd h0 hj
        · obtain ⟨prev, hp⟩ := Option.isSome_iff_exists.mp hs
          simp [digest.consume, hb, hj, prevChain, Tree.read, hp]
    rw [consumeAll, hstep]
    simp only
    rw [ih _ (j + 1) hrest (Or.inr (by simp [Tree.store]))]
    simp only [Nat.add_sub_cancel, List.map_cons, chainStore, prevChain_store]

theorem consume_eq (P : Env) (d : digest) (j : Nat) (bytes : Bytes)
    (hprev : j = 0 ∨ (d.tree (j - 1)).isSome = true) :
    digest.consume P d { dex := j, bytes := bytes } =
      some { d with tree := d.tree.store j (P.F bytes (prevChain P d.tree j)) } := by
  by_cases hj : j = 0
  · simp [digest.consume, hj, prevChain]
  · rcases hprev with h0 | hs
    · exact absurd h0 hj
    · obtain ⟨prev, hp⟩ := Option.isSome_iff_exists.mp hs
      simp [digest.consume, hj, prevChain, Tree.read, hp]

/-! ## The invariant and the method `Sum` -/

theorem workers_eq (P : Env) (d : digest)
    (hidx : d.ch.map block.dex = List.range' (d.dex - d.ch.length) d.ch.length)
    (hdense : ∀ i, i < d.dex - d.ch.length → (d.tree i).isSome = true) :
    digest.workers P d = some { d with ch := [], tree := settled P d } := by
  have hp : d.dex - d.ch.length = 0 ∨ (d.tree (d.dex - d.ch.length - 1)).isSome = true := by
    by_cases h0 : d.dex - d.ch.length = 0
    · exact Or.inl h0
    · exact Or.inr (hdense _ (by omega))
  unfold digest.workers
  rw [consumeAll_eq P d.ch { d with ch := [] } (d.dex - d.ch.length) hidx hp]
  rfl

theorem settled_isSome (P : Env) (d : digest) (h : Inv P d) (i : Nat) :
    (settled P d i).isSome = true ↔ i < d.dex := by
  unfold settled
  rw [chainStore_isSome, h.dense, List.length_map]
  have := h.len_le
  omega

theorem settled_none (P : Env) (d : digest) (h : Inv P d) : settled P d d.dex = none := by
  have := (settled_isSome P d h d.dex).not
  simpa using this

theorem settled_quiet (P : Env) (d : digest) (h : d.ch = []) : settled P d = d.tree := by
  simp [settled, h, chainStore]

theorem uintToInt_small (x : Nat) (h : x < 2 ^ 63) : uintToInt x = Int.ofNat x := by
  have h1 : x % 2 ^ 64 = x := Nat.mod_eq_of_lt (by omega)
  unfold uintToInt
  rw [h1, if_pos h]

theorem uintDec_succ (n : Nat) : uintDec (n + 1) = n := by
  simp [uintDec]

theorem uintDec_pos (n : Nat) (h : 0 < n) : uintDec n = n - 1 := by
  have : n ≠ 0 := by omega
  simp [uintDec, this]

/-- The method `Sum` on a state that satisfies the invariant, with a valid key. -/
theorem Sum_eq (P : Env) (d : digest) (key : Bytes) (h : Inv P d)
    (hk : key.length = 0 ∨ key.length = 24) :
    digest.Sum P d key =
      Outcome.ret
        (P.XORKeyStream (List.replicate d.ln 0) (List.replicate d.ln 0) (effectiveKey key)
          (lastChain P { d with tree := settled P d }) 8)
        (afterSum P d) := by
  have hkey : ¬ (key.length ≠ 0 ∧ key.length ≠ 24) := by omega
  have hw : digest.workers P { d with closed := true } =
      some { d with closed := true, ch := [], tree := settled P d } :=
    workers_eq P { d with closed := true } h.idx (fun i hi => (h.dense i).mpr hi)
  have hnone := settled_none P d h
  simp only [digest.Sum, h.isOpen, Bool.false_eq_true, if_false, hkey, hw, Option.some_bind]
  by_cases hl : 0 < d.lag.length
  · have hp : d.dex = 0 ∨ (settled P d (d.dex - 1)).isSome = true := by
      by_cases h0 : d.dex = 0
      · exact Or.inl h0
      · exact Or.inr ((settled_isSome P d h _).mpr (by omega))
    have hc := consume_eq P { d with closed := true, ch := [], tree := settled P d } d.dex d.lag hp
    simp only [digest.flush, hl, if_true, hc, Option.map_some']
    simp [uintDec_succ, digest.undo, hl, digest.initWorkers, Tree.read, Tree.store_same,
      Tree.delete_store _ _ _ hnone, lastChain, afterSum, effectiveKey]
  · have hl0 : d.lag.length = 0 := by omega
    by_cases h0 : d.dex = 0
    · have hc := consume_eq P { d with closed := true, ch := [], tree := settled P d } 0 []
        (Or.inl rfl)
      simp only [h0] at hc
      simp only [digest.flush, hl, if_false, h0, if_true, hc, Option.map_some']
      simp [uintDec_succ, digest.undo, hl, digest.initWorkers, Tree.read, Tree.store_same,
        lastChain, afterSum, effectiveKey, h0, prevChain]
    · have hpos : 0 < d.dex := by omega
      simp [digest.flush, hl, h0, uintDec_pos _ hpos, digest.undo, digest.initWorkers,
        lastChain, afterSum, effectiveKey, hpos]

theorem Sum_bad_key (P : Env) (d : digest) (key : Bytes) (h : d.closed = false)
    (h0 : key.length ≠ 0) (h24 : key.length ≠ 24) :
    digest.Sum P d key =
      Outcome.panicked (Panic.invalidKeySize key.length) { d with closed := true } := by
  simp [digest.Sum, h, h0, h24]

theorem Sum_closed (P : Env) (d : digest) (key : Bytes) (h : d.closed = true) :
    digest.Sum P d key = Outcome.panicked Panic.closeOfClosedChannel d := by
  simp [digest.Sum, h]

theorem inv_New (P : Env) (ln : Nat) : Inv P (New ln) where
  isOpen := rfl
  len_le := Nat.le_refl _
  idx := rfl
  dense := by intro i; simp [New, digest.initWorkers, Tree.empty]
  lag_lt := P.bytesPerBlock_pos

theorem inv_Write (P : Env) (d d1 : digest) (buf : Bytes) (r : Nat × Option Panic)
    (h : Inv P d) (hw : digest.Write P d buf = Outcome.ret r d1) : Inv P d1 := by
  rw [Write_open P d buf h.isOpen] at hw
  injection hw with _ hd
  subst hd
  obtain ⟨s1, s2, _, _, s5, s6⟩ :=
    segment_spec P.bytesPerBlock P.bytesPerBlock_pos _ d.dex (d.lag ++ buf) rfl
  have hle := h.len_le
  have hidx := h.idx
  have hdense := h.dense
  generalize (d.lag ++ buf).length / P.bytesPerBlock = k at s1 s2 s5
  generalize segment P.bytesPerBlock d.dex (d.lag ++ buf) = seg at s1 s2 s5 s6
  have e1 : d.dex + k - (d.ch.length + k) = d.dex - d.ch.length := by omega
  have e2 : d.dex - d.ch.length + d.ch.length = d.dex := by omega
  refine ⟨h.isOpen, ?_, ?_, ?_, ?_⟩
  · show (d.ch ++ seg.1).length ≤ seg.2.1
    rw [List.length_append, s1, s5]; omega
  · show (d.ch ++ seg.1).map block.dex
      = List.range' (seg.2.1 - (d.ch ++ seg.1).length) (d.ch ++ seg.1).length
    rw [List.length_append, List.map_append, s1, s2, s5, e1, hidx]
    have := List.range'_append_1 (d.dex - d.ch.length) d.ch.length k
    rw [e2, Nat.add_comm k] at this
    exact this
  · intro i
    show (d.tree i).isSome = true ↔ i < seg.2.1 - (d.ch ++ seg.1).length
    rw [List.length_append, s1, s5, e1]
    exact hdense i
  · show seg.2.2.length < P.bytesPerBlock
    rw [s6]
    exact Nat.mod_lt _ P.bytesPerBlock_pos

theorem inv_work (P : Env) (d d1 : digest) (h : Inv P d) (hw : digest.work P d = some d1) :
    Inv P d1 := by
  have hle := h.len_le
  have hidx := h.idx
  have hdense := h.dense
  cases hch : d.ch with
  | nil =>
    simp [digest.work, hch] at hw
    subst hw
    exact h
  | cons b rest =>
    rw [hch] at hle hidx hdense
    simp only [List.map_cons, List.length_cons, List.range'_succ, List.cons.injEq] at hidx
    obtain ⟨hb, hrest⟩ := hidx
    have hp : d.dex - (rest.length + 1) = 0 ∨
        (d.tree (d.dex - (rest.length + 1) - 1)).isSome = true := by
      by_cases h0 : d.dex - (rest.length + 1) = 0
      · exact Or.inl h0
      · exact Or.inr ((hdense _).mpr (by simp only [List.length_cons]; omega))
    have hc := consume_eq P { d with ch := rest } (d.dex - (rest.length + 1)) b.bytes hp
    have hblock : b = { dex := d.dex - (rest.length + 1), bytes := b.bytes } := by
      cases b; simp_all
    simp only [digest.work, hch] at hw
    rw [hblock, hc] at hw
    injection hw with hd
    subst hd
    simp only [List.length_cons] at hle hdense
    have e1 : d.dex - (rest.length + 1) + 1 = d.dex - rest.length := by omega
    refine ⟨h.isOpen, ?_, ?_, ?_, h.lag_lt⟩
    · show rest.length ≤ d.dex
      omega
    · show rest.map block.dex = List.range' (d.dex - rest.length) rest.length
      rw [hrest, e1]
    · intro i
      show ((d.tree.store (d.dex - (rest.length + 1)) _) i).isSome = true ↔ i < d.dex - rest.length
      by_cases hi : i = d.dex - (rest.length + 1)
      · subst hi
        simp [Tree.store]; omega
      · rw [Tree.store_other _ _ _ _ hi, hdense]
        omega

theorem inv_afterSum (P : Env) (d : digest) (h : Inv P d) : Inv P (afterSum P d) := by
  have hs := settled_isSome P d h
  unfold afterSum
  split
  · exact ⟨rfl, Nat.zero_le _, rfl, fun i => by simpa using hs i, h.lag_lt⟩
  · rename_i hn
    have h0 : d.dex = 0 := by omega
    refine ⟨rfl, Nat.zero_le _, rfl, ?_, h.lag_lt⟩
    intro i
    show (((settled P d).store 0 _) i).isSome = true ↔ i < 1 - 0
    by_cases hi : i = 0
    · subst hi; simp [Tree.store]
    · rw [Tree.store_other _ _ _ _ hi, hs, h0]
      omega

theorem inv_Reset (P : Env) (d : digest) (h : Inv P d) (hq : d.ch = []) :
    Inv P (digest.Reset d) := by
  refine ⟨h.isOpen, ?_, ?_, ?_, P.bytesPerBlock_pos⟩
  · show d.ch.length ≤ 0
    simp [hq]
  · show d.ch.map block.dex = List.range' (0 - d.ch.length) d.ch.length
    simp [hq]
  · intro i
    show (Tree.empty i).isSome = true ↔ i < 0 - d.ch.length
    simp [Tree.empty]

theorem consume_ln (P : Env) (d d1 : digest) (b : block) (h : digest.consume P d b = some d1) :
    d1.ln = d.ln := by
  unfold digest.consume at h
  split at h
  · injection h with h; subst h; rfl
  · split at h
    · injection h with h; subst h; rfl
    · exact absurd h (by simp)

theorem afterSum_ln (P : Env) (d : digest) : (afterSum P d).ln = d.ln := by
  unfold afterSum
  split <;> rfl

/-- Every reachable state satisfies the invariant and has the output length given to
`New`. -/
theorem reachable_inv (P : Env) (ln : Nat) (d : digest) (h : Reachable P ln d) :
    Inv P d ∧ d.ln = ln := by
  induction h with
  | new => exact ⟨inv_New P ln, rfl⟩
  | write d d1 buf r _ hw ih =>
    refine ⟨inv_Write P d d1 buf r ih.1 hw, ?_⟩
    rw [Write_open P d buf ih.1.isOpen] at hw
    injection hw with _ hd
    subst hd
    exact ih.2
  | work d d1 _ hw ih =>
    refine ⟨inv_work P d d1 ih.1 hw, ?_⟩
    unfold digest.work at hw
    split at hw
    · injection hw with hw; subst hw; exact ih.2
    · rw [consume_ln P _ _ _ hw]; exact ih.2
  | sum d d1 key out _ hs ih =>
    by_cases hk : key.length = 0 ∨ key.length = 24
    · rw [Sum_eq P d key ih.1 hk] at hs
      injection hs with _ hd
      subst hd
      exact ⟨inv_afterSum P d ih.1, by rw [afterSum_ln]; exact ih.2⟩
    · rw [Sum_bad_key P d key ih.1.isOpen (by omega) (by omega)] at hs
      exact absurd hs (by simp)
  | reset d _ hq ih => exact ⟨inv_Reset P d ih.1 hq, ih.2⟩

/-! ## The serial reference -/

theorem chunks_eq (B : Nat) (hB : 0 < B) :
    ∀ (n fuel dex : Nat) (I : Bytes), I.length = n → I.length ≤ fuel →
      chunks B fuel I =
        (segment B dex I).1.map block.bytes ++
          (if 0 < (segment B dex I).2.2.length then [(segment B dex I).2.2] else []) := by
  intro n
  induction n using Nat.strong_induction_on with
  | _ n ih =>
    intro fuel dex I hn hf
    by_cases h : B ≤ I.length
    · obtain ⟨m, hm⟩ : ∃ m, fuel = m + 1 := ⟨fuel - 1, by omega⟩
      have hlen : I.length ≠ 0 := by omega
      have hd : (I.drop B).length = I.length - B := by simp
      rw [segment_ge B hB dex I h, hm, chunks, if_neg hlen,
        ih (I.drop B).length (by omega) m (dex + 1) (I.drop B) rfl (by omega)]
      simp
    · rw [segment_lt B dex I h]
      cases fuel with
      | zero =>
        have : I = [] := List.eq_nil_of_length_eq_zero (by omega)
        simp [chunks, this]
      | succ m =>
        by_cases h0 : I.length = 0
        · have : I = [] := List.eq_nil_of_length_eq_zero h0
          simp [chunks, this]
        · have ht : I.take B = I := List.take_of_length_le (by omega)
          have hd : I.drop B = [] := List.drop_of_length_le (by omega)
          have hpos : 0 < I.length := by omega
          rw [chunks, if_neg h0, ht, hd]
          cases m with
          | zero => simp [chunks, hpos]
          | succ k => simp [chunks, hpos]

/-- The chain value of the last block on an engine that was written once from `New`
is the chain value of the serial reference. -/
theorem lastChain_eq_refChain (P : Env) (ln : Nat) (I : Bytes) :
    lastChain P
      { ln := ln, dex := (segment P.bytesPerBlock 0 I).2.1, ch := [], closed := false,
        tree := chainStore P Tree.empty 0 P.seed ((segment P.bytesPerBlock 0 I).1.map block.bytes),
        lag := (segment P.bytesPerBlock 0 I).2.2 }
      = refChain P (refBlocks P.bytesPerBlock I) := by
  obtain ⟨s1, _, _, s4, s5, s6⟩ := segment_spec P.bytesPerBlock P.bytesPerBlock_pos _ 0 I rfl
  have hc := chunks_eq P.bytesPerBlock P.bytesPerBlock_pos _ I.length 0 I rfl (Nat.le_refl _)
  have hprev := chainStore_prev P ((segment P.bytesPerBlock 0 I).1.map block.bytes) Tree.empty 0
    P.seed (by simp [prevChain])
  rw [List.length_map, s1, Nat.zero_add] at hprev
  rw [Nat.zero_add] at s5
  generalize segment P.bytesPerBlock 0 I = seg at s1 s4 s5 s6 hc hprev
  unfold lastChain refChain refBlocks
  simp only
  by_cases hl : 0 < seg.2.2.length
  · have hI : I.length ≠ 0 := by
      intro h0
      rw [h0, Nat.zero_mod] at s6
      omega
    rw [if_pos hl, if_neg hI, hc, if_pos hl, List.foldl_append, s5, hprev]
    rfl
  · have hr : seg.2.2 = [] := List.eq_nil_of_length_eq_zero (by omega)
    rw [if_neg hl]
    by_cases h0 : seg.2.1 = 0
    · have hq : I.length / P.bytesPerBlock = 0 := by omega
      have hb : seg.1 = [] := List.eq_nil_of_length_eq_zero (by omega)
      have hI : I = [] := by rw [← s4, hb, hr]; rfl
      simp [h0, hI]
    · have hI : I.length ≠ 0 := by
        intro hz
        rw [hz, Nat.zero_div] at s5
        exact h0 s5
      rw [if_neg h0, if_neg hI, hc, if_neg hl, List.append_nil, ← hprev, ← s5]
      simp [prevChain, h0]

/-! ## Sequences of calls -/

theorem andThen_congr_void {α β γ : Type} (o1 : Outcome α) (o2 : Outcome β)
    (f : digest → Outcome γ) (h : o1.void = o2.void) : o1.andThen f = o2.andThen f := by
  cases o1 <;> cases o2 <;> simp_all [Outcome.void, Outcome.andThen]

theorem andThen_void {α γ : Type} (o : Outcome α) (f : digest → Outcome γ) :
    o.void.andThen f = o.andThen f := by
  cases o <;> rfl

/-- After a call of `Sum` that returns, `dex` and `lag` are as before and `tree` is the
table with every block sent consumed, provided bytes are pending or a block was sent. -/
theorem afterSum_restores (P : Env) (d : digest) (h : 0 < d.lag.length ∨ 0 < d.dex) :
    (afterSum P d).dex = d.dex ∧ (afterSum P d).lag = d.lag ∧
      (afterSum P d).tree = settled P d := by
  simp [afterSum, h]

theorem chainStore_append (P : Env) :
    ∀ (xs ys : List Bytes) (t : Tree) (j : Nat) (c : Bytes),
      chainStore P t j c (xs ++ ys) =
        chainStore P (chainStore P t j c xs) (j + xs.length)
          (xs.foldl (fun c b => P.F b c) c) ys := by
  intro xs
  induction xs with
  | nil => intro ys t j c; rfl
  | cons x xs ih =>
    intro ys t j c
    have e : j + (x :: xs).length = (j + 1) + xs.length := by simp; omega
    rw [List.cons_append, chainStore, ih, e]
    rfl

/-- Writing after a call of `Sum` that returned gives, once the workers are done, the same
table as writing without that call, provided bytes were pending or a block had been sent
when `Sum` was called. -/
theorem settled_Write_afterSum (P : Env) (d : digest) (b : Bytes) (h : Inv P d)
    (hne : 0 < d.lag.length ∨ 0 < d.dex) :
    settled P { afterSum P d with
        dex := (segment P.bytesPerBlock d.dex (d.lag ++ b)).2.1,
        ch := (segment P.bytesPerBlock d.dex (d.lag ++ b)).1,
        lag := (segment P.bytesPerBlock d.dex (d.lag ++ b)).2.2 } =
    settled P { d with
        dex := (segment P.bytesPerBlock d.dex (d.lag ++ b)).2.1,
        ch := d.ch ++ (segment P.bytesPerBlock d.dex (d.lag ++ b)).1,
        lag := (segment P.bytesPerBlock d.dex (d.lag ++ b)).2.2 } := by
  obtain ⟨s1, _, _, _, s5, _⟩ :=
    segment_spec P.bytesPerBlock P.bytesPerBlock_pos _ d.dex (d.lag ++ b) rfl
  have hle := h.len_le
  generalize (d.lag ++ b).length / P.bytesPerBlock = k at s1 s5
  generalize segment P.bytesPerBlock d.dex (d.lag ++ b) = seg at s1 s5
  have e1 : seg.2.1 - seg.1.length = d.dex := by rw [s1, s5]; omega
  have e2 : seg.2.1 - (d.ch ++ seg.1).length = d.dex - d.ch.length := by
    rw [List.length_append, s1, s5]; omega
  have e3 : d.dex - d.ch.length + (d.ch.map block.bytes).length = d.dex := by
    rw [List.length_map]; omega
  have hp := chainStore_prev P (d.ch.map block.bytes) d.tree (d.dex - d.ch.length)
    (prevChain P d.tree (d.dex - d.ch.length)) rfl
  rw [e3] at hp
  have ha : (afterSum P d).tree = settled P d := (afterSum_restores P d hne).2.2
  show chainStore P (afterSum P d).tree (seg.2.1 - seg.1.length)
      (prevChain P (afterSum P d).tree (seg.2.1 - seg.1.length)) (seg.1.map block.bytes)
    = chainStore P d.tree (seg.2.1 - (d.ch ++ seg.1).length)
      (prevChain P d.tree (seg.2.1 - (d.ch ++ seg.1).length)) ((d.ch ++ seg.1).map block.bytes)
  rw [ha, e1, e2, List.map_append, chainStore_append, e3, ← hp]
  rfl

/-- The outcome of `Sum` depends on `ln`, `dex`, `lag` and on the table the workers leave. -/
theorem Sum_congr (P : Env) (x y : digest) (k : Bytes) (hx : Inv P x) (hy : Inv P y)
    (hk : k.length = 0 ∨ k.length = 24) (hln : x.ln = y.ln) (hdex : x.dex = y.dex)
    (hlag : x.lag = y.lag) (hs : settled P x = settled P y) :
    digest.Sum P x k = digest.Sum P y k := by
  rw [Sum_eq P x k hx hk, Sum_eq P y k hy hk]
  obtain ⟨xln, xdex, xch, xclosed, xtree, xlag⟩ := x
  obtain ⟨yln, ydex, ych, yclosed, ytree, ylag⟩ := y
  simp only at hln hdex hlag
  subst hln hdex hlag
  simp only [afterSum, lastChain, hs]

/-- `Sum` is a checkpoint in every state that satisfies the invariant and in which bytes
are pending or a block was sent: `Sum; Write(b); Sum` ends as `Write(b); Sum` does. -/
theorem Sum_checkpoint (P : Env) (d : digest) (b k1 k2 : Bytes) (h : Inv P d)
    (hne : 0 < d.lag.length ∨ 0 < d.dex) (hk1 : k1.length = 0 ∨ k1.length = 24)
    (hk2 : k2.length = 0 ∨ k2.length = 24) :
    (digest.Sum P d k1).andThen (fun d2 =>
        (digest.Write P d2 b).andThen (fun d3 => digest.Sum P d3 k2))
      = (digest.Write P d b).andThen (fun d3 => digest.Sum P d3 k2) := by
  have hinv2 := inv_afterSum P d h
  obtain ⟨r1, r2, _⟩ := afterSum_restores P d hne
  have hw2 := Write_open P (afterSum P d) b hinv2.isOpen
  have hw := Write_open P d b h.isOpen
  have hch : (afterSum P d).ch = [] := by simp [afterSum, hne]
  have hst := settled_Write_afterSum P d b h hne
  rw [r1, r2, hch, List.nil_append] at hw2
  have hi2 := inv_Write P _ _ b _ hinv2 hw2
  have hi := inv_Write P _ _ b _ h hw
  rw [Sum_eq P d k1 h hk1]
  simp only [Outcome.andThen]
  rw [hw2, hw]
  simp only [Outcome.andThen]
  exact Sum_congr P _ _ k2 hi2 hi hk2 (afterSum_ln P d) rfl rfl hst

/-! ## The claims -/

/-- C1, the code on a fresh engine: `Sum` with the empty key on `New ln` returns and leaves
`dex = 1` and the chain value of the empty block in `tree` at index 0, while `dex` was 0 and
`tree` had no entry before the call; the pending bytes are unchanged. -/
theorem C1_fresh_engine_not_restored (P : Env) (ln : Nat) :
    ∃ out d1, digest.Sum P (New ln) [] = Outcome.ret out d1 ∧
      (New ln).dex = 0 ∧ d1.dex = 1 ∧
      (New ln).tree 0 = none ∧ d1.tree 0 = some (P.F [] P.seed) ∧
      d1.lag = (New ln).lag := by
  refine ⟨_, _, Sum_eq P (New ln) [] (inv_New P ln) (Or.inl rfl), rfl, ?_, rfl, ?_, ?_⟩
  · simp [afterSum, New, digest.initWorkers]
  · simp [afterSum, New, digest.initWorkers, Tree.store]
  · simp [afterSum, New, digest.initWorkers]

/-- C2, the code at the failing input: with `demoEnv`, on a fresh engine of output length 4,
`Write([]); Sum(nil); Write([1]); Sum(nil)` ends with the output `[0, 1, 1, 0]`, and
`Write([] ++ [1]); Sum(nil)` returns `[1, 1, 0, 0]`: the two outputs differ. -/
theorem C2_checkpoint_on_fresh_engine :
    ((((digest.Write demoEnv (New 4) []).andThen (fun d => digest.Sum demoEnv d [])).andThen
        (fun d => digest.Write demoEnv d [1])).andThen (fun d => digest.Sum demoEnv d [])).value
      = some [0, 1, 1, 0] ∧
    ((digest.Write demoEnv (New 4) ([] ++ [1])).andThen (fun d => digest.Sum demoEnv d [])).value
      = some [1, 1, 0, 0] ∧
    ((((digest.Write demoEnv (New 4) []).andThen (fun d => digest.Sum demoEnv d [])).andThen
        (fun d => digest.Write demoEnv d [1])).andThen (fun d => digest.Sum demoEnv d [])).value
      ≠ ((digest.Write demoEnv (New 4) ([] ++ [1])).andThen
        (fun d => digest.Sum demoEnv d [])).value := by
  decide

/-- On slices as values, `Write(a)` followed by `Write(b)` ends as `Write(a ++ b)` does:
in the same engine state (the same blocks in the channel, the same `dex`, the same `lag`),
or with the same panic; a call of `Sum` that follows has the same outcome; the same holds
for a first chunk `c` and any list of further chunks `cs`; and on an open channel all
three calls of `Write` return.  The blocks are those cut at line 52, with the bytes they
have at that moment. -/
theorem streaming_on_values (P : Env) (d : digest) (a b key : Bytes) (c : Bytes)
    (cs : List Bytes) :
    ((digest.Write P d a).andThen (fun d1 => digest.Write P d1 b)).void
        = (digest.Write P d (a ++ b)).void ∧
    ((digest.Write P d a).andThen (fun d1 => digest.Write P d1 b)).andThen
        (fun d2 => digest.Sum P d2 key)
      = (digest.Write P d (a ++ b)).andThen (fun d2 => digest.Sum P d2 key) ∧
    writeChunks P d c cs = (digest.Write P d (c ++ cs.flatten)).void ∧
    (writeChunks P d c cs).andThen (fun d2 => digest.Sum P d2 key)
      = (digest.Write P d (c ++ cs.flatten)).andThen (fun d2 => digest.Sum P d2 key) ∧
    (d.closed = false → ∃ d1 d2,
      digest.Write P d a = Outcome.ret (a.length, none) d1 ∧
      digest.Write P d1 b = Outcome.ret (b.length, none) d2 ∧
      digest.Write P d (a ++ b) = Outcome.ret ((a ++ b).length, none) d2) := by
  refine ⟨Write_then_Write P d a b, andThen_congr_void _ _ _ (Write_then_Write P d a b),
    writeChunks_eq P cs d c, ?_, ?_⟩
  · rw [writeChunks_eq, andThen_void]
  · intro h
    have happ := segment_append P.bytesPerBlock P.bytesPerBlock_pos (d.lag ++ a).length d.dex
      (d.lag ++ a) b rfl
    rw [List.append_assoc] at happ
    refine ⟨_, _, Write_open P d a h, Write_open P _ b h, ?_⟩
    rw [Write_open P d (a ++ b) h]
    simp [happ, List.append_assoc]

/-- C4: for every input `I` and every key `K` that is empty or has 24 bytes, `Write(I)` on
`New(ln)` returns, and `Sum(K)` then returns the value of the serial reference `refHash`:
the key stream of 8 rounds on `ln` zero bytes, for the key `K` (24 zero bytes when `K` is
empty) and the chain value of the last of the blocks `refBlocks` of `I`. -/
theorem C4_serial_reference (P : Env) (ln : Nat) (I K : Bytes)
    (hK : K.length = 0 ∨ K.length = 24) :
    ∃ d1 d2, digest.Write P (New ln) I = Outcome.ret (I.length, none) d1 ∧
      digest.Sum P d1 K = Outcome.ret (refHash P ln K I) d2 := by
  have hw := Write_open P (New ln) I rfl
  have hs : ∀ d1, digest.Write P (New ln) I = Outcome.ret (I.length, none) d1 →
      digest.Sum P d1 K = Outcome.ret (refHash P ln K I) (afterSum P d1) := by
    intro d1 h1
    have hinv := inv_Write P _ _ I _ (inv_New P ln) h1
    rw [hw] at h1
    injection h1 with _ hd
    subst hd
    rw [Sum_eq P _ K hinv hK]
    have e := lastChain_eq_refChain P ln I
    obtain ⟨s1, _, _, _, s5, _⟩ := segment_spec P.bytesPerBlock P.bytesPerBlock_pos _ 0 I rfl
    have hz : (segment P.bytesPerBlock 0 I).2.1 - (segment P.bytesPerBlock 0 I).1.length = 0 := by
      rw [s1, s5]; omega
    simp only [refHash, ← e]
    simp [New, digest.initWorkers, settled, prevChain, lastChain, hz]
  exact ⟨_, _, hw, hs _ hw⟩

/-- C4 at a concrete input: five bytes, that is two blocks and one byte, and a key of 24
bytes. -/
theorem C4_serial_reference_witness :
    (([7, 7, 7, 7, 7, 7, 7, 7, 7, 7, 7, 7, 7, 7, 7, 7, 7, 7, 7, 7, 7, 7, 7, 7] : Bytes).length = 0 ∨
      ([7, 7, 7, 7, 7, 7, 7, 7, 7, 7, 7, 7, 7, 7, 7, 7, 7, 7, 7, 7, 7, 7, 7, 7] : Bytes).length = 24) ∧
    ∃ d1 d2, digest.Write demoEnv (New 4) [1, 2, 3, 4, 5] = Outcome.ret (5, none) d1 ∧
      digest.Sum demoEnv d1 [7, 7, 7, 7, 7, 7, 7, 7, 7, 7, 7, 7, 7, 7, 7, 7, 7, 7, 7, 7, 7, 7, 7, 7]
        = Outcome.ret (refHash demoEnv 4
            [7, 7, 7, 7, 7, 7, 7, 7, 7, 7, 7, 7, 7, 7, 7, 7, 7, 7, 7, 7, 7, 7, 7, 7]
            [1, 2, 3, 4, 5]) d2 :=
  ⟨Or.inr rfl, C4_serial_reference demoEnv 4 [1, 2, 3, 4, 5] _ (Or.inr rfl)⟩

/-- C5: in every reachable state, `Sum` panics with the invalid-key-size error exactly when
the key is non-empty and its length is not `KeySize() = 24`; with an empty key and with a
key of 24 bytes it returns an output. -/
theorem C5_invalid_key_size_iff (P : Env) (ln : Nat) (d : digest) (key : Bytes)
    (hr : Reachable P ln d) :
    ((digest.Sum P d key).panic = some (Panic.invalidKeySize key.length) ↔
        (key.length ≠ 0 ∧ key.length ≠ KeySize)) ∧
    (((digest.Sum P d key).panic).isSome = true ↔ (key.length ≠ 0 ∧ key.length ≠ KeySize)) ∧
    ((key.length = 0 ∨ key.length = KeySize) →
        ∃ out d1, digest.Sum P d key = Outcome.ret out d1) := by
  have hinv := (reachable_inv P ln d hr).1
  by_cases hk : key.length = 0 ∨ key.length = 24
  · have hs := Sum_eq P d key hinv hk
    have hn : ¬ (key.length ≠ 0 ∧ key.length ≠ KeySize) := by unfold KeySize; omega
    refine ⟨?_, ?_, fun _ => ⟨_, _, hs⟩⟩
    · rw [hs]
      exact ⟨fun h => absurd h (by simp [Outcome.panic]), fun h => absurd h hn⟩
    · rw [hs]
      exact ⟨fun h => absurd h (by simp [Outcome.panic]), fun h => absurd h hn⟩
  · have hs := Sum_bad_key P d key hinv.isOpen (by omega) (by omega)
    have hn : key.length ≠ 0 ∧ key.length ≠ KeySize := by unfold KeySize; omega
    refine ⟨?_, ?_, fun h => absurd h (by unfold KeySize; omega)⟩
    · rw [hs]
      exact ⟨fun _ => hn, fun _ => rfl⟩
    · rw [hs]
      exact ⟨fun _ => hn, fun _ => rfl⟩

/-- C5 at a concrete input: a fresh engine and a key of ten bytes. -/
theorem C5_invalid_key_size_iff_witness :
    Reachable demoEnv 4 (New 4) ∧
    ((digest.Sum demoEnv (New 4) (List.replicate 10 1)).panic
        = some (Panic.invalidKeySize (List.replicate 10 (1 : Fin 256)).length) ↔
      ((List.replicate 10 (1 : Fin 256)).length ≠ 0 ∧
        (List.replicate 10 (1 : Fin 256)).length ≠ KeySize)) :=
  ⟨Reachable.new, (C5_invalid_key_size_iff demoEnv 4 (New 4) (List.replicate 10 1) Reachable.new).1⟩

/-- C6, the claim fails: with `demoEnv`, `Sum` with a key of ten bytes on a fresh engine
panics with the invalid-key-size error and leaves the channel closed, and the retry of
`Sum` with the empty key then panics on `close`, whereas `Sum` with the empty key on a
fresh engine does not panic; a following `Write` of one block panics too, whereas it
returns on a fresh engine. -/
theorem C6_counterexample :
    (digest.Sum demoEnv (New 4) (List.replicate 10 1)).panic = some (Panic.invalidKeySize 10) ∧
    (New 4).closed = false ∧
    (digest.Sum demoEnv (New 4) (List.replicate 10 1)).state.map digest.closed = some true ∧
    (digest.Sum demoEnv (New 4) (List.replicate 10 1)).state.map
        (fun d => (digest.Sum demoEnv d []).panic) = some (some Panic.closeOfClosedChannel) ∧
    (digest.Sum demoEnv (New 4) []).panic = none ∧
    (digest.Sum demoEnv (New 4) (List.replicate 10 1)).state.map
        (fun d => (digest.Write demoEnv d [1, 2]).panic) = some (some Panic.sendOnClosedChannel) ∧
    (digest.Write demoEnv (New 4) [1, 2]).panic = none := by
  decide

/-- C6 as amended: on an engine with an open channel, `Sum` with a non-empty key whose
length is not 24 panics with the invalid-key-size error and leaves `ln`, `dex`, `lag`,
`tree` and the blocks in the channel as they were, but the channel closed; after that,
`Sum` with any key panics on `close`, a `Write` that completes a block panics on the send
after it emptied `lag`, and a `Write` that completes no block returns and buffers its
bytes. -/
theorem C6_invalid_key_closes_queue (P : Env) (d : digest) (key : Bytes)
    (ho : d.closed = false) (h0 : key.length ≠ 0) (h24 : key.length ≠ 24) :
    digest.Sum P d key =
      Outcome.panicked (Panic.invalidKeySize key.length) { d with closed := true } ∧
    (∀ key2, digest.Sum P { d with closed := true } key2 =
      Outcome.panicked Panic.closeOfClosedChannel { d with closed := true }) ∧
    (∀ buf, P.bytesPerBlock ≤ d.lag.length + buf.length →
      digest.Write P { d with closed := true } buf =
        Outcome.panicked Panic.sendOnClosedChannel { d with closed := true, lag := [] }) ∧
    (∀ buf, d.lag.length + buf.length < P.bytesPerBlock →
      digest.Write P { d with closed := true } buf =
        Outcome.ret (buf.length, none) { d with closed := true, lag := d.lag ++ buf }) := by
  refine ⟨Sum_bad_key P d key ho h0 h24, fun key2 => Sum_closed P _ key2 rfl, ?_, ?_⟩
  · intro buf hb
    rw [Write_eq]
    simp [hb]
  · intro buf hb
    have hlt : ¬ P.bytesPerBlock ≤ (d.lag ++ buf).length := by simp; omega
    have hn : ¬ P.bytesPerBlock ≤ d.lag.length + buf.length := by omega
    rw [Write_eq]
    simp [hn, segment_lt P.bytesPerBlock d.dex (d.lag ++ buf) hlt]

/-- C6 as amended, at a concrete input: a fresh engine and a key of 32 bytes. -/
theorem C6_invalid_key_closes_queue_witness :
    (New 4).closed = false ∧ (List.replicate 32 (1 : Fin 256)).length ≠ 0 ∧
    (List.replicate 32 (1 : Fin 256)).length ≠ 24 ∧
    digest.Sum demoEnv (New 4) (List.replicate 32 1) =
      Outcome.panicked (Panic.invalidKeySize (List.replicate 32 (1 : Fin 256)).length)
        { New 4 with closed := true } :=
  ⟨rfl, by decide, by decide,
    (C6_invalid_key_closes_queue demoEnv (New 4) (List.replicate 32 1) rfl (by decide)
      (by decide)).1⟩

/-- C7: in every reachable state and for every key that is empty or has 24 bytes, the
workers empty the channel and `Sum` returns the key stream of 8 rounds on `ln` zero bytes
for the key (24 zero bytes when the key is empty) and the chain value of the last block of
the computation; `Sum` with the empty key and `Sum` with 24 zero bytes have the same
outcome. -/
theorem C7_sum_output (P : Env) (ln : Nat) (d : digest) (key : Bytes)
    (hr : Reachable P ln d) (hk : key.length = 0 ∨ key.length = 24) :
    (∃ dq d1, digest.workers P d = some dq ∧
      digest.Sum P d key =
        Outcome.ret
          (P.XORKeyStream (List.replicate ln 0) (List.replicate ln 0)
            (if key.length = 24 then key else List.replicate 24 0) (lastChain P dq) 8) d1) ∧
    digest.Sum P d [] = digest.Sum P d (List.replicate 24 0) := by
  obtain ⟨hinv, hln⟩ := reachable_inv P ln d hr
  have hw := workers_eq P d hinv.idx (fun i hi => (hinv.dense i).mpr hi)
  have hkey : effectiveKey key = if key.length = 24 then key else List.replicate 24 0 := by
    unfold effectiveKey
    rcases hk with h | h <;> simp [h]
  constructor
  · refine ⟨_, afterSum P d, hw, ?_⟩
    rw [Sum_eq P d key hinv hk, hkey, hln]
    rfl
  · rw [Sum_eq P d [] hinv (Or.inl rfl), Sum_eq P d (List.replicate 24 0) hinv (Or.inr (by simp))]
    simp [effectiveKey]

/-- C7 at a concrete input: a fresh engine and the empty key. -/
theorem C7_sum_output_witness :
    Reachable demoEnv 4 (New 4) ∧ (([] : Bytes).length = 0 ∨ ([] : Bytes).length = 24) ∧
    digest.Sum demoEnv (New 4) [] = digest.Sum demoEnv (New 4) (List.replicate 24 0) :=
  ⟨Reachable.new, Or.inl rfl, (C7_sum_output demoEnv 4 (New 4) [] Reachable.new (Or.inl rfl)).2⟩

/-- C8, the claim fails: for the output length `2^63` given to `New`, `Size()` returns
`-2^63`; for the output length `2^62`, with `2^48` bytes as the most that `make`
allocates, `Sum(nil)` on the fresh engine panics at line 85 and returns no bytes; and for
the output length 4, after `Write([1, 2, 3, 4]); Sum(nil); Write([5, 6])` and a `Reset`
called while the block `(2, [5, 6])` is in the channel, `Write([9]); Sum(nil)` does not
return. -/
theorem C8_counterexample :
    (New (2 ^ 63)).Size = -(2 ^ 63 : Int) ∧ (New (2 ^ 63)).Size ≠ Int.ofNat (2 ^ 63) ∧
    (digest.SumAlloc demoEnv (2 ^ 48) (New (2 ^ 62)) []).panic
      = some Panic.makeLenOutOfRange ∧
    (digest.SumAlloc demoEnv (2 ^ 48) (New (2 ^ 62)) []).value = none ∧
    ((((digest.Write demoEnv (New 4) [1, 2, 3, 4]).andThen
        (fun d => digest.SumAlloc demoEnv (2 ^ 48) d [])).andThen
        (fun d => digest.Write demoEnv d [5, 6])).andThen
        (fun d => (digest.Write demoEnv (digest.Reset d) [9]).andThen
          (fun d1 => digest.SumAlloc demoEnv (2 ^ 48) d1 []))).isBlocked = true := by
  refine ⟨?_, ?_, ?_, ?_, ?_⟩
  · simp [digest.Size, New, digest.initWorkers, uintToInt]
  · simp [digest.Size, New, digest.initWorkers, uintToInt]
  · decide
  · decide
  · decide

/-- C9: on an engine with an open channel, `Write(buf)` returns `(len(buf), nil)` for every
`buf`, whatever the pending bytes are. -/
theorem C9_write_returns_count (P : Env) (d : digest) (buf : Bytes) (ho : d.closed = false) :
    ∃ d1, digest.Write P d buf = Outcome.ret (buf.length, none) d1 :=
  ⟨_, Write_open P d buf ho⟩

/-- C9 at a concrete input: one byte pending and three bytes written. -/
theorem C9_write_returns_count_witness :
    ({ New 4 with lag := [9] } : digest).closed = false ∧
    ∃ d1, digest.Write demoEnv { New 4 with lag := [9] } [1, 2, 3]
      = Outcome.ret (([1, 2, 3] : Bytes).length, none) d1 :=
  ⟨rfl, C9_write_returns_count demoEnv { New 4 with lag := [9] } [1, 2, 3] rfl⟩

/-- On slices as values, and on an engine with an open channel, `Write(buf)` returns and
appends to the channel the blocks `bs`, with the bytes they have at the send, where `bs`
has `(len(lag) + len(buf)) / bytesPerBlock` blocks, each of `bytesPerBlock` bytes, with
the indexes `dex, dex + 1, ...` in that order; the bytes of `bs` followed by the new `lag`
are the old `lag` followed by `buf`; the new `lag` is shorter than a block; and the new
`dex` is the old `dex` plus the number of blocks. -/
theorem segmentation_on_values (P : Env) (d : digest) (buf : Bytes) (ho : d.closed = false) :
    ∃ bs d1, digest.Write P d buf = Outcome.ret (buf.length, none) d1 ∧
      d1.ch = d.ch ++ bs ∧
      bs.length = (d.lag.length + buf.length) / P.bytesPerBlock ∧
      (∀ b ∈ bs, b.bytes.length = P.bytesPerBlock) ∧
      bs.map block.dex = List.range' d.dex bs.length ∧
      (bs.map block.bytes).flatten ++ d1.lag = d.lag ++ buf ∧
      d1.lag.length < P.bytesPerBlock ∧
      d1.dex = d.dex + bs.length := by
  obtain ⟨s1, s2, s3, s4, s5, s6⟩ :=
    segment_spec P.bytesPerBlock P.bytesPerBlock_pos _ d.dex (d.lag ++ buf) rfl
  refine ⟨(segment P.bytesPerBlock d.dex (d.lag ++ buf)).1, _, Write_open P d buf ho, rfl, ?_,
    s3, ?_, s4, ?_, ?_⟩
  · rw [s1, List.length_append]
  · rw [s2, s1]
  · show (segment P.bytesPerBlock d.dex (d.lag ++ buf)).2.2.length < P.bytesPerBlock
    rw [s6]
    exact Nat.mod_lt _ P.bytesPerBlock_pos
  · show (segment P.bytesPerBlock d.dex (d.lag ++ buf)).2.1 = _
    rw [s5, s1]

/-! ## The final block and the read of the chain table -/

theorem flush_eq_finalBlock (P : Env) (d : digest) :
    digest.flush P d =
      match finalBlock d with
      | some b => (digest.consume P d b).map (fun x => { x with dex := x.dex + 1 })
      | none => some d := by
  unfold digest.flush finalBlock
  by_cases hl : 0 < d.lag.length
  · simp [hl]
  · by_cases h0 : d.dex = 0
    · simp [hl, h0]
    · simp [hl, h0]

/-- The state in which `Sum` reads the chain table, for a state that satisfies the
invariant. -/
theorem atRead_eq (P : Env) (d : digest) (h : Inv P d) :
    digest.atRead P d = some
      (if 0 < d.lag.length then
        { d with closed := true, ch := [], dex := d.dex + 1,
                 tree := (settled P d).store d.dex
                   (P.F d.lag (prevChain P (settled P d) d.dex)) }
      else if d.dex = 0 then
        { d with closed := true, ch := [], dex := 1,
                 tree := (settled P d).store 0 (P.F [] P.seed) }
      else { d with closed := true, ch := [], tree := settled P d }) := by
  have hw : digest.workers P { d with closed := true } =
      some { d with closed := true, ch := [], tree := settled P d } :=
    workers_eq P { d with closed := true } h.idx (fun i hi => (h.dense i).mpr hi)
  simp only [digest.atRead, hw, Option.some_bind]
  by_cases hl : 0 < d.lag.length
  · have hp : d.dex = 0 ∨ (settled P d (d.dex - 1)).isSome = true := by
      by_cases h0 : d.dex = 0
      · exact Or.inl h0
      · exact Or.inr ((settled_isSome P d h _).mpr (by omega))
    have hc := consume_eq P { d with closed := true, ch := [], tree := settled P d } d.dex d.lag hp
    simp only [digest.flush, hl, if_true, hc, Option.map_some']
  · by_cases h0 : d.dex = 0
    · have hc := consume_eq P { d with closed := true, ch := [], tree := settled P d } 0 []
        (Or.inl rfl)
      simp only [h0] at hc
      simp only [digest.flush, hl, if_false, h0, if_true, hc, Option.map_some']
      simp [prevChain]
    · simp [digest.flush, hl, h0]

/-- The method `Sum` in terms of the state in which it reads the chain table. -/
theorem Sum_eq_atRead (P : Env) (d : digest) (key : Bytes) (ho : d.closed = false)
    (hk : key.length = 0 ∨ key.length = 24) :
    digest.Sum P d key =
      match digest.atRead P d with
      | none => Outcome.blocked
      | some d3 =>
        Outcome.ret
          (P.XORKeyStream (List.replicate d3.ln 0) (List.replicate d3.ln 0) (effectiveKey key)
            (d3.tree.read (uintDec d3.dex)) 8)
          (digest.initWorkers (digest.undo d3)) := by
  have hkey : ¬ (key.length ≠ 0 ∧ key.length ≠ 24) := by omega
  simp only [digest.Sum, ho, Bool.false_eq_true, if_false, hkey, digest.atRead, effectiveKey]

/-- The output of `New(ln); Write(I); Sum(K)` is the value of the serial reference. -/
theorem hashOf_eq (P : Env) (ln : Nat) (I K : Bytes) (hK : K.length = 0 ∨ K.length = 24) :
    hashOf P ln I K = some (refHash P ln K I) := by
  have hw := Write_open P (New ln) I rfl
  have hinv := inv_Write P _ _ I _ (inv_New P ln) hw
  unfold hashOf
  rw [hw]
  simp only [Outcome.andThen]
  rw [Sum_eq P _ K hinv hK]
  have e := lastChain_eq_refChain P ln I
  obtain ⟨s1, _, _, _, s5, _⟩ := segment_spec P.bytesPerBlock P.bytesPerBlock_pos _ 0 I rfl
  have hz : (segment P.bytesPerBlock 0 I).2.1 - (segment P.bytesPerBlock 0 I).1.length = 0 := by
    rw [s1, s5]; omega
  simp only [refHash, ← e, Outcome.value]
  simp [New, digest.initWorkers, settled, prevChain, lastChain, hz]

/-! ## The claims on the final block, `Reset` and the invariants -/

/-- C11, the claim fails: with `demoEnv2`, after `Write([1, 2])` on a fresh engine (one full
block, `dex = 1`, `lag` empty) `Sum` consumes no final block, and its output `[1, 1, 2, 0]`
is the key stream for the chain value of the block `(0, [1, 2])`, not the key stream
`[1, 1, 1, 2]` for the chain value of an empty block chained after it. -/
theorem C11_counterexample :
    (digest.Write demoEnv2 (New 4) [1, 2]).state.map (fun d => (d.dex, d.lag)) = some (1, []) ∧
    (digest.Write demoEnv2 (New 4) [1, 2]).state.map (fun d => (finalBlock d).isSome)
      = some false ∧
    hashOf demoEnv2 4 [1, 2] [] = some [1, 1, 2, 0] ∧
    demoEnv2.XORKeyStream (List.replicate 4 0) (List.replicate 4 0) (List.replicate 24 0)
      (demoEnv2.F [1, 2] demoEnv2.seed) 8 = [1, 1, 2, 0] ∧
    demoEnv2.XORKeyStream (List.replicate 4 0) (List.replicate 4 0) (List.replicate 24 0)
      (demoEnv2.F [] (demoEnv2.F [1, 2] demoEnv2.seed)) 8 = [1, 1, 1, 2] := by
  decide

/-- C11 as amended: lines 74-81 consume the block `finalBlock`, if there is one; in every
reachable state and for every key that is empty or has 24 bytes, the workers empty the
channel, `Sum` returns, and: when bytes are pending the final block is `(dex, lag)` and the
output is the key stream for its chain value; when `lag` is empty and `dex` is 0 the final
block is `(0, empty)` and the output is the key stream for its chain value; when `lag` is
empty and `dex` is positive there is no final block and the output is the key stream for
`tree[dex-1]`, the chain value of the last block sent. -/
theorem C11_final_block (P : Env) (ln : Nat) (d : digest) (key : Bytes)
    (hr : Reachable P ln d) (hk : key.length = 0 ∨ key.length = 24) :
    (∀ x : digest, digest.flush P x =
      match finalBlock x with
      | some b => (digest.consume P x b).map (fun y => { y with dex := y.dex + 1 })
      | none => some x) ∧
    ∃ dq out d1, digest.workers P d = some dq ∧ digest.Sum P d key = Outcome.ret out d1 ∧
      (0 < d.lag.length →
        finalBlock d = some { dex := d.dex, bytes := d.lag } ∧
        out = P.XORKeyStream (List.replicate ln 0) (List.replicate ln 0) (effectiveKey key)
          (P.F d.lag (prevChain P dq.tree d.dex)) 8) ∧
      (d.lag.length = 0 → d.dex = 0 →
        finalBlock d = some { dex := 0, bytes := [] } ∧
        out = P.XORKeyStream (List.replicate ln 0) (List.replicate ln 0) (effectiveKey key)
          (P.F [] P.seed) 8) ∧
      (d.lag.length = 0 → 0 < d.dex →
        finalBlock d = none ∧
        out = P.XORKeyStream (List.replicate ln 0) (List.replicate ln 0) (effectiveKey key)
          (dq.tree.read (d.dex - 1)) 8) := by
  obtain ⟨hinv, hln⟩ := reachable_inv P ln d hr
  have hw := workers_eq P d hinv.idx (fun i hi => (hinv.dense i).mpr hi)
  refine ⟨flush_eq_finalBlock P, _, _, _, hw, Sum_eq P d key hinv hk, ?_, ?_, ?_⟩
  · intro hl
    simp [finalBlock, lastChain, hl, hln]
  · intro hl h0
    simp [finalBlock, lastChain, hl, h0, hln]
  · intro hl h0
    have h1 : d.dex ≠ 0 := by omega
    simp [finalBlock, lastChain, hl, h1, hln]

/-- C11 as amended, at a concrete input: the state after `Write([1, 2])` on a fresh engine,
in which `lag` is empty and `dex` is 1. -/
theorem C11_final_block_witness :
    Reachable demoEnv2 4 { New 4 with dex := 1, ch := [{ dex := 0, bytes := [1, 2] }] } ∧
    (([] : Bytes).length = 0 ∨ ([] : Bytes).length = 24) ∧
    ∃ dq out d1,
      digest.workers demoEnv2 { New 4 with dex := 1, ch := [{ dex := 0, bytes := [1, 2] }] }
        = some dq ∧
      digest.Sum demoEnv2 { New 4 with dex := 1, ch := [{ dex := 0, bytes := [1, 2] }] } []
        = Outcome.ret out d1 ∧
      ((0 : Nat) = 0 → 0 < 1 →
        finalBlock { New 4 with dex := 1, ch := [{ dex := 0, bytes := [1, 2] }] } = none ∧
        out = demoEnv2.XORKeyStream (List.replicate 4 0) (List.replicate 4 0) (effectiveKey [])
          (dq.tree.read (1 - 1)) 8) :=
  have hw : Reachable demoEnv2 4 { New 4 with dex := 1, ch := [{ dex := 0, bytes := [1, 2] }] } :=
    Reachable.write (New 4) _ [1, 2] (2, none) Reachable.new rfl
  have h := (C11_final_block demoEnv2 4 _ [] hw (Or.inl rfl)).2
  ⟨hw, Or.inl rfl, h.choose, h.choose_spec.choose, h.choose_spec.choose_spec.choose,
    h.choose_spec.choose_spec.choose_spec.1, h.choose_spec.choose_spec.choose_spec.2.1,
    h.choose_spec.choose_spec.choose_spec.2.2.2.2⟩

theorem Reset_eq_New (P : Env) (ln : Nat) (d : digest) (hinv : Inv P d) (hln : d.ln = ln)
    (hq : d.ch = []) : digest.Reset d = New ln := by
  have ho := hinv.isOpen
  obtain ⟨dln, ddex, dch, dclosed, dtree, dlag⟩ := d
  simp only at hq ho hln
  subst hq ho hln
  rfl

theorem inv_settled (P : Env) (d : digest) (h : Inv P d) :
    Inv P { d with ch := [], tree := settled P d } :=
  ⟨h.isOpen, Nat.zero_le _, rfl, fun i => by simpa using settled_isSome P d h i, h.lag_lt⟩

theorem afterSum_ch (P : Env) (d : digest) : (afterSum P d).ch = [] := by
  unfold afterSum
  split <;> rfl

/-- C13: in every reachable state the pending bytes are at most `bytesPerBlock - 1`. -/
theorem C13_pending_bound (P : Env) (ln : Nat) (d : digest) (hr : Reachable P ln d) :
    d.lag.length ≤ P.bytesPerBlock - 1 := by
  have h := (reachable_inv P ln d hr).1.lag_lt
  omega

/-- C13 at a concrete input: the state after `Write([1, 2, 3])` on a fresh engine, with
blocks of two bytes and one byte pending. -/
theorem C13_pending_bound_witness :
    Reachable demoEnv 4 { New 4 with dex := 1, ch := [{ dex := 0, bytes := [1, 2] }], lag := [3] } ∧
    ({ New 4 with dex := 1, ch := [{ dex := 0, bytes := [1, 2] }], lag := [3] } : digest).lag.length
      ≤ demoEnv.bytesPerBlock - 1 :=
  have hw : Reachable demoEnv 4
      { New 4 with dex := 1, ch := [{ dex := 0, bytes := [1, 2] }], lag := [3] } :=
    Reachable.write (New 4) _ [1, 2, 3] (3, none) Reachable.new rfl
  ⟨hw, C13_pending_bound demoEnv 4 _ hw⟩

/-- C14: if the key stream on `n` zero bytes is the first `n` bytes of the key stream on
`2n` zero bytes, for every key and nonce and 8 rounds, then for every input `I`, every key
`K` that is empty or has 24 bytes and every `n > 0` the output of `New(n); Write(I); Sum(K)`
is the first `n` bytes of the output of `New(2n); Write(I); Sum(K)`. -/
theorem C14_xof_prefix (P : Env) (I K : Bytes) (n : Nat)
    (hK : K.length = 0 ∨ K.length = 24) (_hn : 0 < n)
    (hpre : ∀ k c : Bytes,
      P.XORKeyStream (List.replicate n 0) (List.replicate n 0) k c 8 =
        (P.XORKeyStream (List.replicate (2 * n) 0) (List.replicate (2 * n) 0) k c 8).take n) :
    ∃ o1 o2, hashOf P n I K = some o1 ∧ hashOf P (2 * n) I K = some o2 ∧ o1 = o2.take n :=
  ⟨_, _, hashOf_eq P n I K hK, hashOf_eq P (2 * n) I K hK, hpre _ _⟩

/-- C14 at a concrete input: `demoEnv`, whose key stream is prefix-consistent, the input
`[1, 2, 3]` and the output lengths 2 and 4. -/
theorem C14_xof_prefix_witness :
    (([] : Bytes).length = 0 ∨ ([] : Bytes).length = 24) ∧ 0 < 2 ∧
    (∀ k c : Bytes,
      demoEnv.XORKeyStream (List.replicate 2 0) (List.replicate 2 0) k c 8 =
        (demoEnv.XORKeyStream (List.replicate (2 * 2) 0) (List.replicate (2 * 2) 0) k c 8).take 2) ∧
    ∃ o1 o2, hashOf demoEnv 2 [1, 2, 3] [] = some o1 ∧
      hashOf demoEnv (2 * 2) [1, 2, 3] [] = some o2 ∧ o1 = o2.take 2 :=
  ⟨Or.inl rfl, by decide, fun _ _ => rfl,
    C14_xof_prefix demoEnv [1, 2, 3] [] 2 (Or.inl rfl) (by decide) (fun _ _ => rfl)⟩

/-- There are more keys of 24 bytes than outputs of fewer than 24 bytes: two different
keys have the same key stream, whatever the primitive is. -/
theorem keystream_collision (P : Env) (ln : Nat) (c : Bytes) (h : ln < 24) :
    ∃ K1 K2 : Bytes, K1.length = 24 ∧ K2.length = 24 ∧ K1 ≠ K2 ∧
      P.XORKeyStream (List.replicate ln 0) (List.replicate ln 0) K1 c 8 =
        P.XORKeyStream (List.replicate ln 0) (List.replicate ln 0) K2 c 8 := by
  let f : Mathlib.Vector (Fin 256) 24 → Mathlib.Vector (Fin 256) ln := fun k =>
    ⟨P.XORKeyStream (List.replicate ln 0) (List.replicate ln 0) k.1 c 8, by
      rw [P.XORKeyStream_length, List.length_replicate]⟩
  have hcard : Fintype.card (Mathlib.Vector (Fin 256) ln)
      < Fintype.card (Mathlib.Vector (Fin 256) 24) := by
    rw [card_vector, card_vector, Fintype.card_fin]
    exact Nat.pow_lt_pow_right (by norm_num) h
  obtain ⟨x, y, hne, hxy⟩ := Fintype.exists_ne_map_eq_of_card_lt f hcard
  refine ⟨x.1, y.1, x.2, y.2, fun e => hne (Subtype.ext e), ?_⟩
  exact congrArg Subtype.val hxy

theorem effectiveKey_of_length (K : Bytes) (h : K.length = 24) : effectiveKey K = K := by
  simp [effectiveKey, h]

/-- C15, the claim fails: with `demoEnv`, the empty input and the output length 4, the
key of 24 zero bytes and the key of 23 zero bytes followed by a 1 are different keys of 24
bytes with the same output. -/
theorem C15_counterexample :
    (List.replicate 24 (0 : Fin 256)).length = 24 ∧
    (List.replicate 23 (0 : Fin 256) ++ [1]).length = 24 ∧
    List.replicate 24 (0 : Fin 256) ≠ List.replicate 23 (0 : Fin 256) ++ [1] ∧
    0 < 4 ∧
    hashOf demoEnv 4 [] (List.replicate 24 0) = hashOf demoEnv 4 [] (List.replicate 23 0 ++ [1]) := by
  decide

/-- C15 as amended: for a fixed input `I`, a fixed output length `ln` and keys `K1`, `K2`
of 24 bytes, the outputs are the key streams of the primitive for `K1` and for `K2` on the
same chain value, which does not depend on the key, so that the outputs differ exactly when
these key streams differ; and when `ln < 24` there are two different keys of 24 bytes with
the same output. -/
theorem C15_key_sensitivity (P : Env) (ln : Nat) (I K1 K2 : Bytes)
    (h1 : K1.length = 24) (h2 : K2.length = 24) :
    hashOf P ln I K1 = some (P.XORKeyStream (List.replicate ln 0) (List.replicate ln 0) K1
      (refChain P (refBlocks P.bytesPerBlock I)) 8) ∧
    hashOf P ln I K2 = some (P.XORKeyStream (List.replicate ln 0) (List.replicate ln 0) K2
      (refChain P (refBlocks P.bytesPerBlock I)) 8) ∧
    (hashOf P ln I K1 ≠ hashOf P ln I K2 ↔
      P.XORKeyStream (List.replicate ln 0) (List.replicate ln 0) K1
          (refChain P (refBlocks P.bytesPerBlock I)) 8 ≠
        P.XORKeyStream (List.replicate ln 0) (List.replicate ln 0) K2
          (refChain P (refBlocks P.bytesPerBlock I)) 8) ∧
    (ln < 24 → ∃ K3 K4 : Bytes, K3.length = 24 ∧ K4.length = 24 ∧ K3 ≠ K4 ∧
      hashOf P ln I K3 = hashOf P ln I K4) := by
  have e1 := hashOf_eq P ln I K1 (Or.inr h1)
  have e2 := hashOf_eq P ln I K2 (Or.inr h2)
  simp only [refHash, effectiveKey_of_length K1 h1] at e1
  simp only [refHash, effectiveKey_of_length K2 h2] at e2
  refine ⟨e1, e2, ?_, ?_⟩
  · rw [e1, e2]
    simp
  · intro h
    obtain ⟨K3, K4, h3, h4, hne, hs⟩ :=
      keystream_collision P ln (refChain P (refBlocks P.bytesPerBlock I)) h
    refine ⟨K3, K4, h3, h4, hne, ?_⟩
    rw [hashOf_eq P ln I K3 (Or.inr h3), hashOf_eq P ln I K4 (Or.inr h4)]
    simp only [refHash, effectiveKey_of_length K3 h3, effectiveKey_of_length K4 h4, hs]

/-- C15 as amended, at a concrete input: two keys of 24 bytes that differ in the first
byte, on `demoEnv`. -/
theorem C15_key_sensitivity_witness :
    (List.replicate 24 (0 : Fin 256)).length = 24 ∧
    ((1 : Fin 256) :: List.replicate 23 0).length = 24 ∧
    (hashOf demoEnv 4 [1, 2, 3] (List.replicate 24 0)
        ≠ hashOf demoEnv 4 [1, 2, 3] (1 :: List.replicate 23 0) ↔
      demoEnv.XORKeyStream (List.replicate 4 0) (List.replicate 4 0) (List.replicate 24 0)
          (refChain demoEnv (refBlocks demoEnv.bytesPerBlock [1, 2, 3])) 8 ≠
        demoEnv.XORKeyStream (List.replicate 4 0) (List.replicate 4 0) (1 :: List.replicate 23 0)
          (refChain demoEnv (refBlocks demoEnv.bytesPerBlock [1, 2, 3])) 8) :=
  ⟨rfl, rfl,
    (C15_key_sensitivity demoEnv 4 [1, 2, 3] (List.replicate 24 0) (1 :: List.replicate 23 0)
      rfl rfl).2.2.1⟩

/-- The state in which `Sum` reads the chain table: `dex` is positive, the entry read is
present, and on an engine without bytes it is the chain value of the empty block. -/
theorem atRead_spec (P : Env) (d : digest) (h : Inv P d) :
    ∃ d3, digest.atRead P d = some d3 ∧ 1 ≤ d3.dex ∧ d3.ln = d.ln ∧ d3.lag = d.lag ∧
      (d3.tree (d3.dex - 1)).isSome = true ∧
      (d.dex = 0 → d.lag.length = 0 → d3.dex = 1 ∧ d3.tree 0 = some (P.F [] P.seed)) := by
  have ha := atRead_eq P d h
  by_cases hl : 0 < d.lag.length
  · rw [if_pos hl] at ha
    refine ⟨_, ha, ?_, rfl, rfl, ?_, ?_⟩
    · show 1 ≤ d.dex + 1
      omega
    · show (((settled P d).store d.dex _) (d.dex + 1 - 1)).isSome = true
      simp [Tree.store]
    · intro _ h0
      omega
  · by_cases h0 : d.dex = 0
    · rw [if_neg hl, if_pos h0] at ha
      refine ⟨_, ha, Nat.le_refl _, rfl, rfl, ?_, ?_⟩
      · show (((settled P d).store 0 _) (1 - 1)).isSome = true
        simp [Tree.store]
      · intro _ _
        exact ⟨rfl, by simp [Tree.store]⟩
    · rw [if_neg hl, if_neg h0] at ha
      refine ⟨_, ha, ?_, rfl, rfl, ?_, ?_⟩
      · show 1 ≤ d.dex
        omega
      · show (settled P d (d.dex - 1)).isSome = true
        exact (settled_isSome P d h _).mpr (by omega)
      · intro h1 _
        exact absurd h1 h0

/-- C17: in every reachable state and for every key that is empty or has 24 bytes, `Sum`
reaches line 86 in a state `d3` with `dex >= 1`, so that `dex - 1` does not wrap there; it
returns the key stream for `tree[dex-1]` of that state; the decrement of lines 89-92 is
executed only with `dex >= 1` and gives `dex - 1`; and when no byte is pending and no
block was sent, the block that `Sum` consumes is `(0, empty)`, `d3` has `dex = 1` and the
output is the key stream for its chain value, stored at index 0. -/
theorem C17_at_least_one_block (P : Env) (ln : Nat) (d : digest) (key : Bytes)
    (hr : Reachable P ln d) (hk : key.length = 0 ∨ key.length = 24) :
    ∃ d3, digest.atRead P d = some d3 ∧ 1 ≤ d3.dex ∧ uintDec d3.dex = d3.dex - 1 ∧
      digest.Sum P d key =
        Outcome.ret
          (P.XORKeyStream (List.replicate ln 0) (List.replicate ln 0) (effectiveKey key)
            (d3.tree.read (d3.dex - 1)) 8)
          (digest.initWorkers (digest.undo d3)) ∧
      ((0 < d3.lag.length ∨ d3.dex = 0) →
        1 ≤ d3.dex ∧ (digest.undo d3).dex = d3.dex - 1) ∧
      (¬ (0 < d3.lag.length ∨ d3.dex = 0) → digest.undo d3 = d3) ∧
      (d.dex = 0 → d.lag.length = 0 →
        finalBlock d = some { dex := 0, bytes := [] } ∧ d3.dex = 1 ∧
        d3.tree 0 = some (P.F [] P.seed) ∧ d3.tree.read (d3.dex - 1) = P.F [] P.seed) := by
  obtain ⟨hinv, hln⟩ := reachable_inv P ln d hr
  obtain ⟨d3, ha, hpos, h3ln, _, _, hzero⟩ := atRead_spec P d hinv
  have hdec : uintDec d3.dex = d3.dex - 1 := uintDec_pos _ (by omega)
  have hs := Sum_eq_atRead P d key hinv.isOpen hk
  rw [ha] at hs
  simp only [hdec, h3ln, hln] at hs
  refine ⟨d3, ha, hpos, hdec, hs, ?_, ?_, ?_⟩
  · intro hc
    refine ⟨hpos, ?_⟩
    simp [digest.undo, hc, hdec]
  · intro hc
    simp [digest.undo, hc]
  · intro h0 hl
    obtain ⟨e1, e2⟩ := hzero h0 hl
    refine ⟨by simp [finalBlock, hl, h0], e1, e2, ?_⟩
    simp [Tree.read, e1, e2]

/-- C17 at a concrete input: a fresh engine and the empty key. -/
theorem C17_at_least_one_block_witness :
    Reachable demoEnv 4 (New 4) ∧ (([] : Bytes).length = 0 ∨ ([] : Bytes).length = 24) ∧
    ∃ d3, digest.atRead demoEnv (New 4) = some d3 ∧ 1 ≤ d3.dex ∧ uintDec d3.dex = d3.dex - 1 :=
  have h := C17_at_least_one_block demoEnv 4 (New 4) [] Reachable.new (Or.inl rfl)
  ⟨Reachable.new, Or.inl rfl, h.choose, h.choose_spec.1, h.choose_spec.2.1, h.choose_spec.2.2.1⟩

/-- With `Reset` called only when no block is left in the channel (`Reachable`): in every
such state in which no block is left in the channel, the keys of
`tree` are exactly the indexes below `dex`; from every reachable state the workers empty
the channel and leave such a state, with the same `dex`; the entry `tree[dex-1]` that `Sum`
reads at line 86 is present in the state in which it is read, for every key that is empty
or has 24 bytes; and `Reset` leaves no entry. -/
theorem dense_table_quiet_reset (P : Env) (ln : Nat) (d : digest) (key : Bytes)
    (hr : Reachable P ln d) (hk : key.length = 0 ∨ key.length = 24) :
    (d.ch = [] → ∀ i, (d.tree i).isSome = true ↔ i < d.dex) ∧
    (∃ dq, digest.workers P d = some dq ∧ dq.ch = [] ∧ dq.dex = d.dex ∧
      ∀ i, (dq.tree i).isSome = true ↔ i < dq.dex) ∧
    (∃ d3 d1, digest.atRead P d = some d3 ∧
      (d3.tree (uintDec d3.dex)).isSome = true ∧
      digest.Sum P d key =
        Outcome.ret
          (P.XORKeyStream (List.replicate ln 0) (List.replicate ln 0) (effectiveKey key)
            (d3.tree.read (uintDec d3.dex)) 8) d1) ∧
    (∀ i, (digest.Reset d).tree i = none) := by
  obtain ⟨hinv, hln⟩ := reachable_inv P ln d hr
  have hw := workers_eq P d hinv.idx (fun i hi => (hinv.dense i).mpr hi)
  obtain ⟨d3, ha, hpos, h3ln, _, hsome, _⟩ := atRead_spec P d hinv
  have hdec : uintDec d3.dex = d3.dex - 1 := uintDec_pos _ (by omega)
  have hs := Sum_eq_atRead P d key hinv.isOpen hk
  rw [ha] at hs
  simp only [h3ln, hln] at hs
  refine ⟨?_, ⟨_, hw, rfl, rfl, fun i => settled_isSome P d hinv i⟩, ⟨d3, _, ha, ?_, hs⟩,
    fun _ => rfl⟩
  · intro hq i
    have := hinv.dense i
    simpa [hq] using this
  · rw [hdec]
    exact hsome

/-! ## The turns of the workers -/

/-- A turn of a worker between two calls does not change the table that the workers
leave in the end. -/
theorem settled_work (P : Env) (d d1 : digest) (h : Inv P d) (hw : digest.work P d = some d1) :
    settled P d1 = settled P d ∧ d1.ln = d.ln ∧ d1.dex = d.dex ∧ d1.lag = d.lag := by
  have hle := h.len_le
  have hidx := h.idx
  have hdense := h.dense
  cases hch : d.ch with
  | nil =>
    simp [digest.work, hch] at hw
    subst hw
    exact ⟨rfl, rfl, rfl, rfl⟩
  | cons b rest =>
    rw [hch] at hle hidx hdense
    simp only [List.map_cons, List.length_cons, List.range'_succ, List.cons.injEq] at hidx
    obtain ⟨hb, _⟩ := hidx
    have hp : d.dex - (rest.length + 1) = 0 ∨
        (d.tree (d.dex - (rest.length + 1) - 1)).isSome = true := by
      by_cases h0 : d.dex - (rest.length + 1) = 0
      · exact Or.inl h0
      · exact Or.inr ((hdense _).mpr (by simp only [List.length_cons]; omega))
    have hc := consume_eq P { d with ch := rest } (d.dex - (rest.length + 1)) b.bytes hp
    have hblock : b = { dex := d.dex - (rest.length + 1), bytes := b.bytes } := by
      cases b; simp_all
    simp only [digest.work, hch] at hw
    rw [hblock, hc] at hw
    injection hw with hd
    subst hd
    simp only [List.length_cons] at hle
    have e1 : d.dex - rest.length = d.dex - (rest.length + 1) + 1 := by omega
    refine ⟨?_, rfl, rfl, rfl⟩
    show chainStore P (d.tree.store (d.dex - (rest.length + 1)) _) (d.dex - rest.length)
        (prevChain P (d.tree.store (d.dex - (rest.length + 1)) _) (d.dex - rest.length))
        (rest.map block.bytes)
      = chainStore P d.tree (d.dex - d.ch.length) (prevChain P d.tree (d.dex - d.ch.length))
        (d.ch.map block.bytes)
    rw [hch, List.map_cons, List.length_cons, chainStore, e1, prevChain_store]

/-- Whether a worker takes its turn before `Sum` is called or after makes no difference
to the outcome of `Sum`. -/
theorem Sum_work (P : Env) (d d1 : digest) (key : Bytes) (h : Inv P d)
    (hw : digest.work P d = some d1) (hk : key.length = 0 ∨ key.length = 24) :
    digest.Sum P d1 key = digest.Sum P d key := by
  obtain ⟨hs, hln, hdex, hlag⟩ := settled_work P d d1 h hw
  exact Sum_congr P d1 d key (inv_work P d d1 h hw) h hk hln hdex hlag hs

/-! ## `Write` on slices and `Write` on values -/

theorem load_length (m : Memory) (s : Slice)
    (h : s.off + s.len ≤ (m.getD s.arr []).length) : (m.load s).length = s.len := by
  simp only [Memory.load, List.length_take, List.length_drop]
  omega

theorem load_upTo (m : Memory) (s : Slice) (n : Nat) (h : n ≤ s.len) :
    m.load (s.upTo n) = (m.load s).take n := by
  simp only [Memory.load, Slice.upTo, List.take_take, Nat.min_eq_left h]

theorem load_since (m : Memory) (s : Slice) (n : Nat) :
    m.load (s.since n) = (m.load s).drop n := by
  simp only [Memory.load, Slice.since, List.drop_take, List.drop_drop]

/-- The loop of `Write` on a slice sends the blocks that the loop on its bytes sends, as
long as the memory is the one in which the loop ran. -/
theorem writeLoopMem_eq (B : Nat) (m : Memory) :
    ∀ (fuel dex : Nat) (s : Slice), s.off + s.len ≤ (m.getD s.arr []).length →
      (writeLoopMem B fuel dex s).1.map (fun b => (b.dex, m.load b.bytes))
        = (writeLoop B fuel dex (m.load s)).1.map (fun b => (b.dex, b.bytes)) ∧
      (writeLoopMem B fuel dex s).2.1 = (writeLoop B fuel dex (m.load s)).2.1 ∧
      m.load (writeLoopMem B fuel dex s).2.2 = (writeLoop B fuel dex (m.load s)).2.2 ∧
      (writeLoopMem B fuel dex s).2.2.len = (writeLoop B fuel dex (m.load s)).2.2.length ∧
      (∀ b ∈ (writeLoopMem B fuel dex s).1, b.bytes.arr = s.arr) := by
  intro fuel
  induction fuel with
  | zero =>
    intro dex s h
    exact ⟨rfl, rfl, rfl, (load_length m s h).symm, fun b hb => absurd hb (by simp [writeLoopMem])⟩
  | succ n ih =>
    intro dex s h
    have hlen := load_length m s h
    by_cases hB : B ≤ s.len
    · have hB2 : B ≤ (m.load s).length := by rw [hlen]; exact hB
      have hv : (s.since B).off + (s.since B).len ≤ (m.getD (s.since B).arr []).length := by
        simp only [Slice.since]
        omega
      obtain ⟨i1, i2, i3, i4, i5⟩ := ih (dex + 1) (s.since B) hv
      rw [load_since] at i1 i2 i3 i4
      simp only [writeLoopMem, writeLoop, hB, hB2, if_true, List.map_cons]
      refine ⟨?_, i2, i3, i4, ?_⟩
      · rw [i1, load_upTo m s B hB]
      · intro b hb
        rcases List.mem_cons.mp hb with rfl | hb
        · rfl
        · exact i5 b hb
    · have hB2 : ¬ B ≤ (m.load s).length := by rw [hlen]; exact hB
      have e1 : writeLoopMem B (n + 1) dex s = ([], dex, s) := by simp [writeLoopMem, hB]
      have e2 : writeLoop B (n + 1) dex (m.load s) = ([], dex, m.load s) := by
        simp [writeLoop, hB2]
      rw [e1, e2]
      exact ⟨rfl, rfl, rfl, hlen.symm, fun b hb => absurd hb (by simp)⟩

theorem load_new_array (m : Memory) (X pad : Bytes) (c : Nat) :
    Memory.load (m ++ [X ++ pad]) { arr := m.length, off := 0, len := X.length, cap := c } = X := by
  simp [Memory.load, List.getD_append_right]

/-- On a fresh engine, and read in the memory that `Write` leaves, the blocks sent by
`Write` on a slice, the counter and the pending bytes are those of `Write` on the bytes of
the slice. -/
theorem WriteMem_memNew (P : Env) (newCap : Nat → Nat) (m : Memory) (buf : Slice) (ln : Nat)
    (hv : buf.off + buf.len ≤ (m.getD buf.arr []).length) (ha : buf.arr < m.length) :
    ∃ d1, digest.Write P (New ln) (m.load buf) = Outcome.ret ((m.load buf).length, none) d1 ∧
      queued (WriteMem P newCap m memNew buf).1 (WriteMem P newCap m memNew buf).2.1
        = d1.queued ∧
      (WriteMem P newCap m memNew buf).2.1.dex = d1.dex ∧
      (WriteMem P newCap m memNew buf).1.load (WriteMem P newCap m memNew buf).2.1.lag = d1.lag ∧
      (WriteMem P newCap m memNew buf).2.2 = (m.load buf).length := by
  have hlen := load_length m buf hv
  obtain ⟨l1, l2, l3, l4, l5⟩ := writeLoopMem_eq P.bytesPerBlock m buf.len 0 buf hv
  refine ⟨_, Write_open P (New ln) (m.load buf) rfl, ?_, ?_, ?_, ?_⟩
  · show queued _ _ = ((New ln).ch ++ (segment P.bytesPerBlock 0 ([] ++ m.load buf)).1).map _
    simp only [List.nil_append, segment, hlen]
    show _ = ([] ++ (writeLoop P.bytesPerBlock buf.len 0 (m.load buf)).1).map _
    rw [List.nil_append, ← l1]
    simp only [queued, WriteMem, memNew, Nat.lt_irrefl, if_false, List.nil_append]
    apply List.map_congr_left
    intro b hb
    have hb2 : b.bytes.arr < m.length := by rw [l5 b hb]; exact ha
    by_cases hr : 0 < (writeLoopMem P.bytesPerBlock buf.len 0 buf).2.2.len
    · have hnot : ¬ (writeLoopMem P.bytesPerBlock buf.len 0 buf).2.2.len ≤ 0 := by omega
      simp only [hr, if_true, goAppend, Nat.zero_add, hnot, if_false, Memory.load]
      rw [List.getD_append _ _ _ _ hb2]
    · simp only [hr, if_false]
  · show (writeLoopMem P.bytesPerBlock buf.len 0 buf).2.1
      = (segment P.bytesPerBlock 0 ([] ++ m.load buf)).2.1
    simp only [List.nil_append, segment, hlen]
    exact l2
  · show _ = (segment P.bytesPerBlock 0 ([] ++ m.load buf)).2.2
    simp only [List.nil_append, segment, hlen]
    rw [← l3]
    simp only [WriteMem, memNew, Nat.lt_irrefl, if_false]
    by_cases hr : 0 < (writeLoopMem P.bytesPerBlock buf.len 0 buf).2.2.len
    · have hnot : ¬ (writeLoopMem P.bytesPerBlock buf.len 0 buf).2.2.len ≤ 0 := by omega
      have hrl : (m.load (writeLoopMem P.bytesPerBlock buf.len 0 buf).2.2).length
          = (writeLoopMem P.bytesPerBlock buf.len 0 buf).2.2.len := by rw [l3, l4]
      have hnew := load_new_array m (m.load (writeLoopMem P.bytesPerBlock buf.len 0 buf).2.2)
        (List.replicate (newCap (writeLoopMem P.bytesPerBlock buf.len 0 buf).2.2.len
          - (writeLoopMem P.bytesPerBlock buf.len 0 buf).2.2.len) 0)
        (max (newCap (writeLoopMem P.bytesPerBlock buf.len 0 buf).2.2.len)
          (writeLoopMem P.bytesPerBlock buf.len 0 buf).2.2.len)
      rw [hrl] at hnew
      have hnil : m.load { arr := 0, off := 0, len := 0, cap := 0 } = [] := by
        simp [Memory.load]
      simp only [hr, if_true, goAppend, Nat.zero_add, hnot, if_false, hnil, List.nil_append]
      exact hnew
    · have h0 : (writeLoopMem P.bytesPerBlock buf.len 0 buf).2.2.len = 0 := by omega
      have hnil : m.load (writeLoopMem P.bytesPerBlock buf.len 0 buf).2.2 = [] :=
        List.eq_nil_of_length_eq_zero (by rw [l3, ← l4, h0])
      simp only [hr, if_false, hnil]
      simp [Memory.load]
  · show buf.len = _
    exact hlen.symm

/-! ## The blocks in the channel and the memory -/

/-- C19, the code at the failing inputs, with blocks of two bytes.
(1) `Write(buf)` with `buf = [1, 2]` on a fresh engine sends a block that denotes `[1, 2]`
in the caller's array, number 0; after the caller's assignment `buf[0] = 9` the block in
the channel denotes `[9, 2]`.
(2) After `Write([7]); Write([1, 2])` the block in the channel denotes `[2, 1]`, while the
bytes of the input at that position are `[7, 1]`: the block was cut from the backing array
of `lag`, and line 57 copied the rest `[2]` to the start of that array.
(3) After `Write([7]); Write([1])` the block in the channel denotes `[7, 1]`, and after a
further `Write([5])` it denotes `[5, 1]`. -/
theorem C19_queued_block_shares_bytes :
    queued (writesMem demoEnv smallCap [[1, 2]] memNew [⟨0, 0, 2, 2⟩]).1
        (writesMem demoEnv smallCap [[1, 2]] memNew [⟨0, 0, 2, 2⟩]).2 = [(0, [1, 2])] ∧
    queued ((writesMem demoEnv smallCap [[1, 2]] memNew [⟨0, 0, 2, 2⟩]).1.store 0 0 [9])
        (writesMem demoEnv smallCap [[1, 2]] memNew [⟨0, 0, 2, 2⟩]).2 = [(0, [9, 2])] ∧
    queued (writesMem demoEnv smallCap [[7], [1, 2]] memNew [⟨0, 0, 1, 1⟩, ⟨1, 0, 2, 2⟩]).1
        (writesMem demoEnv smallCap [[7], [1, 2]] memNew [⟨0, 0, 1, 1⟩, ⟨1, 0, 2, 2⟩]).2
      = [(0, [2, 1])] ∧
    ((digest.Write demoEnv (New 4) [7]).andThen
        (fun d => digest.Write demoEnv d [1, 2])).state.map digest.queued = some [(0, [7, 1])] ∧
    queued (writesMem demoEnv smallCap [[7], [1], [5]] memNew [⟨0, 0, 1, 1⟩, ⟨1, 0, 1, 1⟩]).1
        (writesMem demoEnv smallCap [[7], [1], [5]] memNew [⟨0, 0, 1, 1⟩, ⟨1, 0, 1, 1⟩]).2
      = [(0, [7, 1])] ∧
    queued
        (writesMem demoEnv smallCap [[7], [1], [5]] memNew
          [⟨0, 0, 1, 1⟩, ⟨1, 0, 1, 1⟩, ⟨2, 0, 1, 1⟩]).1
        (writesMem demoEnv smallCap [[7], [1], [5]] memNew
          [⟨0, 0, 1, 1⟩, ⟨1, 0, 1, 1⟩, ⟨2, 0, 1, 1⟩]).2
      = [(0, [5, 1])] := by
  decide

/-! ## The allocation of line 85 and `Reset` at any time -/

theorem consumeAll_ln (P : Env) :
    ∀ (bs : List block) (d d1 : digest), consumeAll P d bs = some d1 → d1.ln = d.ln := by
  intro bs
  induction bs with
  | nil =>
    intro d d1 h
    simp only [consumeAll] at h
    injection h with h
    rw [h]
  | cons b bs ih =>
    intro d d1 h
    simp only [consumeAll] at h
    cases hc : digest.consume P d b with
    | none => rw [hc] at h; exact absurd h (by simp)
    | some d2 =>
      rw [hc] at h
      rw [ih d2 d1 h, consume_ln P d d2 b hc]

theorem flush_ln (P : Env) (d d1 : digest) (h : digest.flush P d = some d1) : d1.ln = d.ln := by
  rw [flush_eq_finalBlock] at h
  cases hf : finalBlock d with
  | none =>
    simp only [hf] at h
    injection h with h
    rw [h]
  | some b =>
    cases hc : digest.consume P d b with
    | none => simp [hf, hc] at h
    | some d2 =>
      simp only [hf, hc, Option.map_some', Option.some.injEq] at h
      rw [← h]
      exact consume_ln P d d2 b hc

theorem atRead_ln (P : Env) (d d3 : digest) (h : digest.atRead P d = some d3) : d3.ln = d.ln := by
  unfold digest.atRead digest.workers at h
  cases hw : consumeAll P { d with closed := true, ch := [] } d.ch with
  | none => rw [hw] at h; exact absurd h (by simp)
  | some d2 =>
    rw [hw] at h
    simp only [Option.some_bind] at h
    rw [flush_ln P d2 d3 h, consumeAll_ln P _ _ _ hw]

theorem undo_ln (d : digest) : (digest.undo d).ln = d.ln := by
  unfold digest.undo
  split <;> rfl

/-- A call of `Sum` that returns leaves `ln` as it was, in any state. -/
theorem Sum_ret_ln (P : Env) (d d1 : digest) (key out : Bytes)
    (h : digest.Sum P d key = Outcome.ret out d1) : d1.ln = d.ln := by
  by_cases hc : d.closed = true
  · simp [digest.Sum, hc] at h
  · by_cases hk : key.length ≠ 0 ∧ key.length ≠ 24
    · simp [digest.Sum, hc, hk] at h
    · cases hd3 : (digest.workers P { d with closed := true }).bind (digest.flush P) with
      | none =>
        simp only [digest.Sum, hc, hk, hd3, if_false] at h
        exact Outcome.noConfusion h
      | some d3 =>
        simp only [digest.Sum, hc, hk, hd3, if_false] at h
        injection h with _ hd
        rw [← hd]
        show (digest.undo d3).ln = d.ln
        rw [undo_ln]
        exact atRead_ln P d d3 hd3

/-- A call of `Sum` that returns, in any state, returns as many bytes as the field `ln`
says. -/
theorem Sum_ret_length (P : Env) (d d1 : digest) (key out : Bytes)
    (h : digest.Sum P d key = Outcome.ret out d1) : out.length = d.ln := by
  by_cases hc : d.closed = true
  · simp [digest.Sum, hc] at h
  · by_cases hk : key.length ≠ 0 ∧ key.length ≠ 24
    · simp [digest.Sum, hc, hk] at h
    · cases hd3 : (digest.workers P { d with closed := true }).bind (digest.flush P) with
      | none =>
        simp only [digest.Sum, hc, hk, hd3, if_false] at h
        exact Outcome.noConfusion h
      | some d3 =>
        simp only [digest.Sum, hc, hk, hd3, if_false] at h
        injection h with ho _
        rw [← ho, P.XORKeyStream_length, List.length_replicate]
        exact atRead_ln P d d3 hd3

/-- A call of `Write` that returns leaves `ln` as it was, in any state. -/
theorem Write_ret_ln (P : Env) (d d1 : digest) (buf : Bytes) (r : Nat × Option Panic)
    (h : digest.Write P d buf = Outcome.ret r d1) : d1.ln = d.ln := by
  rw [Write_eq] at h
  split at h
  · exact absurd h (by simp)
  · injection h with _ hd
    rw [← hd]

theorem work_ln (P : Env) (d d1 : digest) (h : digest.work P d = some d1) : d1.ln = d.ln := by
  unfold digest.work at h
  split at h
  · injection h with h; rw [h]
  · have := consume_ln P _ _ _ h
    exact this

/-- The output length does not change, whatever is called and whenever `Reset` is
called. -/
theorem reachableAny_ln (P : Env) (ln : Nat) (d : digest) (h : ReachableAny P ln d) :
    d.ln = ln := by
  induction h with
  | new => rfl
  | write d d1 buf r _ hw ih => rw [Write_ret_ln P d d1 buf r hw]; exact ih
  | work d d1 _ hw ih => rw [work_ln P d d1 hw]; exact ih
  | sum d d1 key out _ hs ih => rw [Sum_ret_ln P d d1 key out hs]; exact ih
  | reset d _ ih => exact ih

/-- Within the allocation limit `Sum` with the allocation of line 85 is `Sum`. -/
theorem SumAlloc_eq_Sum (P : Env) (maxAlloc : Nat) (d : digest) (key : Bytes)
    (h : d.ln ≤ maxAlloc) : digest.SumAlloc P maxAlloc d key = digest.Sum P d key := by
  by_cases hc : d.closed = true
  · simp only [digest.SumAlloc, digest.Sum, hc, if_true]
  · have hc2 : d.closed = false := by simpa using hc
    by_cases hk : key.length ≠ 0 ∧ key.length ≠ 24
    · simp only [digest.SumAlloc, digest.Sum, hc2, Bool.false_eq_true, if_false]
      rw [if_pos hk, if_pos hk]
    · cases hd3 : (digest.workers P { d with closed := true }).bind (digest.flush P) with
      | none => simp only [digest.SumAlloc, digest.Sum, hc2, Bool.false_eq_true, hk, hd3, if_false]
      | some d3 =>
        have hln : d3.ln = d.ln := atRead_ln P d d3 hd3
        have hn : ¬ maxAlloc < d3.ln := by omega
        simp only [digest.SumAlloc, digest.Sum, hc2, Bool.false_eq_true, hk, hd3, hn, if_false]

/-- Over the allocation limit `Sum` panics at line 85, if it gets there. -/
theorem SumAlloc_over_limit (P : Env) (maxAlloc : Nat) (d : digest) (key : Bytes)
    (hinv : Inv P d) (hk : key.length = 0 ∨ key.length = 24) (h : maxAlloc < d.ln) :
    (digest.SumAlloc P maxAlloc d key).panic = some Panic.makeLenOutOfRange := by
  obtain ⟨d3, ha, _, hln, _⟩ := atRead_spec P d hinv
  have hkey : ¬ (key.length ≠ 0 ∧ key.length ≠ 24) := by omega
  unfold digest.atRead at ha
  have h3 : maxAlloc < d3.ln := by omega
  simp only [digest.SumAlloc, hinv.isOpen, Bool.false_eq_true, if_false, hkey, ha, h3, if_true,
    Outcome.panic]

/-- C8 as amended: for an allocation limit `maxAlloc` below `2^63` and an output length
`ln` within it, in every state reached with `Reset` called when no block is left in the
channel, the field `ln` is the one given to `New`, `Size()` returns `ln`, and `Sum`, with
the allocation of line 85 and a key that is empty or has 24 bytes, returns exactly `ln`
bytes and leaves `ln` as it was; and in every state reached with `Reset` called at any
time the field `ln` is the one given to `New`, `Size()` returns `ln`, and every call of
`Sum` that returns, with any key, returns exactly `ln` bytes and leaves `ln` as it was. -/
theorem C8_output_length (P : Env) (maxAlloc ln : Nat) (d : digest) (key : Bytes)
    (hr : Reachable P ln d) (hmax : maxAlloc < 2 ^ 63) (hln : ln ≤ maxAlloc)
    (hk : key.length = 0 ∨ key.length = 24) :
    d.ln = ln ∧ d.Size = Int.ofNat ln ∧
    (∃ out d1, digest.SumAlloc P maxAlloc d key = Outcome.ret out d1 ∧ out.length = ln ∧
      d1.ln = ln) ∧
    (∀ d2, ReachableAny P ln d2 → d2.ln = ln ∧ d2.Size = Int.ofNat ln ∧
      ∀ key2 out d3, digest.SumAlloc P maxAlloc d2 key2 = Outcome.ret out d3 →
        out.length = ln ∧ d3.ln = ln) := by
  obtain ⟨hinv, hd⟩ := reachable_inv P ln d hr
  have hsmall : ln < 2 ^ 63 := by omega
  have hsum : digest.SumAlloc P maxAlloc d key =
      Outcome.ret
        (P.XORKeyStream (List.replicate d.ln 0) (List.replicate d.ln 0) (effectiveKey key)
          (lastChain P { d with tree := settled P d }) 8)
        (afterSum P d) := by
    rw [SumAlloc_eq_Sum P maxAlloc d key (by omega)]
    exact Sum_eq P d key hinv hk
  refine ⟨hd, ?_, ⟨_, _, hsum, ?_, ?_⟩, ?_⟩
  · rw [digest.Size, hd, uintToInt_small ln hsmall]
  · rw [P.XORKeyStream_length, List.length_replicate, hd]
  · rw [afterSum_ln, hd]
  · intro d2 h2
    have e := reachableAny_ln P ln d2 h2
    refine ⟨e, by rw [digest.Size, e, uintToInt_small ln hsmall], ?_⟩
    intro key2 out d3 h3
    rw [SumAlloc_eq_Sum P maxAlloc d2 key2 (by omega)] at h3
    exact ⟨by rw [Sum_ret_length P d2 d3 key2 out h3, e],
      by rw [Sum_ret_ln P d2 d3 key2 out h3, e]⟩

/-- C8 as amended, at a concrete input: the state after `Write([1, 2, 3])`, `Sum(nil)` and
`Reset()` on an engine of output length 4, with the allocation limit `2^48`. -/
theorem C8_output_length_witness :
    Reachable demoEnv 4 (digest.Reset (afterSum demoEnv
      { New 4 with dex := 1, ch := [{ dex := 0, bytes := [1, 2] }], lag := [3] })) ∧
    2 ^ 48 < 2 ^ 63 ∧ 4 ≤ 2 ^ 48 ∧ (([] : Bytes).length = 0 ∨ ([] : Bytes).length = 24) ∧
    (digest.Reset (afterSum demoEnv
      { New 4 with dex := 1, ch := [{ dex := 0, bytes := [1, 2] }], lag := [3] })).Size
      = Int.ofNat 4 ∧
    ∃ out d1, digest.SumAlloc demoEnv (2 ^ 48) (digest.Reset (afterSum demoEnv
        { New 4 with dex := 1, ch := [{ dex := 0, bytes := [1, 2] }], lag := [3] })) []
      = Outcome.ret out d1 ∧ out.length = 4 ∧ d1.ln = 4 :=
  have hw : Reachable demoEnv 4
      { New 4 with dex := 1, ch := [{ dex := 0, bytes := [1, 2] }], lag := [3] } :=
    Reachable.write (New 4) _ [1, 2, 3] (3, none) Reachable.new rfl
  have hs : Reachable demoEnv 4 (afterSum demoEnv
      { New 4 with dex := 1, ch := [{ dex := 0, bytes := [1, 2] }], lag := [3] }) :=
    Reachable.sum _ _ [] _ hw
      (Sum_eq demoEnv _ [] (reachable_inv demoEnv 4 _ hw).1 (Or.inl rfl))
  have hr := Reachable.reset _ hs rfl
  have h := C8_output_length demoEnv (2 ^ 48) 4 _ [] hr (by decide) (by decide) (Or.inl rfl)
  ⟨hr, by decide, by decide, Or.inl rfl, h.2.1, h.2.2.1⟩

/-! ## Claims that fail on the slices of `Write` and on `Reset` with blocks in the channel -/

/-- C3, the code at the failing input, with blocks of two bytes: after
`Write([7]); Write([1, 2])` the block in the channel denotes `[2, 1]`, after the single
`Write([7, 1, 2])` it denotes `[7, 1]`, while `dex` and the pending bytes are the same; a
`Sum` with the empty key that reads these blocks returns `[2, 2, 1, 1]` in the first case
and `[2, 7, 1, 1]` in the second. -/
theorem C3_chunked_write_differs :
    queued (writesMem demoEnv smallCap [[7], [1, 2]] memNew [⟨0, 0, 1, 1⟩, ⟨1, 0, 2, 2⟩]).1
        (writesMem demoEnv smallCap [[7], [1, 2]] memNew [⟨0, 0, 1, 1⟩, ⟨1, 0, 2, 2⟩]).2
      = [(0, [2, 1])] ∧
    queued (writesMem demoEnv smallCap [[7, 1, 2]] memNew [⟨0, 0, 3, 3⟩]).1
        (writesMem demoEnv smallCap [[7, 1, 2]] memNew [⟨0, 0, 3, 3⟩]).2
      = [(0, [7, 1])] ∧
    (writesMem demoEnv smallCap [[7], [1, 2]] memNew [⟨0, 0, 1, 1⟩, ⟨1, 0, 2, 2⟩]).2.dex
      = (writesMem demoEnv smallCap [[7, 1, 2]] memNew [⟨0, 0, 3, 3⟩]).2.dex ∧
    (writesMem demoEnv smallCap [[7], [1, 2]] memNew [⟨0, 0, 1, 1⟩, ⟨1, 0, 2, 2⟩]).1.load
        (writesMem demoEnv smallCap [[7], [1, 2]] memNew [⟨0, 0, 1, 1⟩, ⟨1, 0, 2, 2⟩]).2.lag
      = [2] ∧
    (writesMem demoEnv smallCap [[7, 1, 2]] memNew [⟨0, 0, 3, 3⟩]).1.load
        (writesMem demoEnv smallCap [[7, 1, 2]] memNew [⟨0, 0, 3, 3⟩]).2.lag
      = [2] ∧
    (digest.Sum demoEnv (memDigest.view
        (writesMem demoEnv smallCap [[7], [1, 2]] memNew [⟨0, 0, 1, 1⟩, ⟨1, 0, 2, 2⟩]).1
        (writesMem demoEnv smallCap [[7], [1, 2]] memNew [⟨0, 0, 1, 1⟩, ⟨1, 0, 2, 2⟩]).2 4)
      []).value = some [2, 2, 1, 1] ∧
    (digest.Sum demoEnv (memDigest.view
        (writesMem demoEnv smallCap [[7, 1, 2]] memNew [⟨0, 0, 3, 3⟩]).1
        (writesMem demoEnv smallCap [[7, 1, 2]] memNew [⟨0, 0, 3, 3⟩]).2 4)
      []).value = some [2, 7, 1, 1] := by
  decide

/-- C10, the code at the failing input, with blocks of two bytes: with `lag = [7]`, as
`Write([7])` on a fresh engine leaves it, `Write([1, 2])` returns the count 2, sends one
block of index 0 and leaves `dex = 1` and `lag = [2]`, but the block in the channel denotes
`[2, 1]` when `Write` returns, so that the blocks followed by the new `lag` are
`[2, 1, 2]` and not `[7, 1, 2]`. -/
theorem C10_blocks_not_the_input :
    (writesMem demoEnv smallCap [[7], [1, 2]] memNew [⟨0, 0, 1, 1⟩]).1.load
        (writesMem demoEnv smallCap [[7], [1, 2]] memNew [⟨0, 0, 1, 1⟩]).2.lag = [7] ∧
    (writesMem demoEnv smallCap [[7], [1, 2]] memNew [⟨0, 0, 1, 1⟩]).2.dex = 0 ∧
    (WriteMem demoEnv smallCap
        (writesMem demoEnv smallCap [[7], [1, 2]] memNew [⟨0, 0, 1, 1⟩]).1
        (writesMem demoEnv smallCap [[7], [1, 2]] memNew [⟨0, 0, 1, 1⟩]).2 ⟨1, 0, 2, 2⟩).2.2 = 2 ∧
    (WriteMem demoEnv smallCap
        (writesMem demoEnv smallCap [[7], [1, 2]] memNew [⟨0, 0, 1, 1⟩]).1
        (writesMem demoEnv smallCap [[7], [1, 2]] memNew [⟨0, 0, 1, 1⟩]).2 ⟨1, 0, 2, 2⟩).2.1.dex
      = 1 ∧
    queued
        (WriteMem demoEnv smallCap
          (writesMem demoEnv smallCap [[7], [1, 2]] memNew [⟨0, 0, 1, 1⟩]).1
          (writesMem demoEnv smallCap [[7], [1, 2]] memNew [⟨0, 0, 1, 1⟩]).2 ⟨1, 0, 2, 2⟩).1
        (WriteMem demoEnv smallCap
          (writesMem demoEnv smallCap [[7], [1, 2]] memNew [⟨0, 0, 1, 1⟩]).1
          (writesMem demoEnv smallCap [[7], [1, 2]] memNew [⟨0, 0, 1, 1⟩]).2 ⟨1, 0, 2, 2⟩).2.1
      = [(0, [2, 1])] ∧
    (WriteMem demoEnv smallCap
        (writesMem demoEnv smallCap [[7], [1, 2]] memNew [⟨0, 0, 1, 1⟩]).1
        (writesMem demoEnv smallCap [[7], [1, 2]] memNew [⟨0, 0, 1, 1⟩]).2 ⟨1, 0, 2, 2⟩).1.load
      (WriteMem demoEnv smallCap
        (writesMem demoEnv smallCap [[7], [1, 2]] memNew [⟨0, 0, 1, 1⟩]).1
        (writesMem demoEnv smallCap [[7], [1, 2]] memNew [⟨0, 0, 1, 1⟩]).2 ⟨1, 0, 2, 2⟩).2.1.lag
      = [2] ∧
    ([2, 1] ++ [2] : Bytes) ≠ [7] ++ [1, 2] := by
  decide

/-- C12, the code at the failing input, with `demoEnv`: after
`Write([1, 2, 3, 4]); Sum(nil); Write([5, 6])` the block `(2, [5, 6])` is in the channel;
`Reset` leaves it there and deletes the entries of `tree`, among them the one this block
waits for; `Write([9]); Sum(nil)` after that `Reset` does not return, while on `New(4)` it
returns `[1, 9, 0, 0]`. -/
theorem C12_reset_with_block_in_channel :
    (((digest.Write demoEnv (New 4) [1, 2, 3, 4]).andThen
        (fun d => digest.Sum demoEnv d [])).andThen
        (fun d => digest.Write demoEnv d [5, 6])).state.map digest.queued
      = some [(2, [5, 6])] ∧
    (((digest.Write demoEnv (New 4) [1, 2, 3, 4]).andThen
        (fun d => digest.Sum demoEnv d [])).andThen
        (fun d => digest.Write demoEnv d [5, 6])).state.map
        (fun d => ((digest.Reset d).dex, (digest.Reset d).lag, (digest.Reset d).queued,
          (digest.Reset d).tree.keysBelow 3))
      = some (0, [], [(2, [5, 6])], []) ∧
    ((((digest.Write demoEnv (New 4) [1, 2, 3, 4]).andThen
        (fun d => digest.Sum demoEnv d [])).andThen
        (fun d => digest.Write demoEnv d [5, 6])).andThen
        (fun d => (digest.Write demoEnv (digest.Reset d) [9]).andThen
          (fun d1 => digest.Sum demoEnv d1 []))).isBlocked = true ∧
    ((digest.Write demoEnv (New 4) [9]).andThen (fun d1 => digest.Sum demoEnv d1 [])).value
      = some [1, 9, 0, 0] := by
  refine ⟨?_, ?_, ?_, ?_⟩ <;> decide

/-- C18, the code at the failing input, with `demoEnv`: after `Write([1, 2, 3, 4])` and a
`Reset()` called while the two blocks are in the channel, `Reset` leaves the blocks there,
`dex = 0` and no entry; once the workers have received the two blocks the channel is empty
and `dex` is 0, but the keys of `tree` are 0 and 1; after a `Sum(nil)` instead, the channel
is empty and `dex` is 1, but the keys of `tree` are 0 and 1; that state is reached by
`Write`, `Reset` and `Sum`. -/
theorem C18_stale_entry_after_reset :
    (digest.Write demoEnv (New 4) [1, 2, 3, 4]).state.map
        (fun d => ((digest.Reset d).queued, (digest.Reset d).dex,
          (digest.Reset d).tree.keysBelow 4))
      = some ([(0, [1, 2]), (1, [3, 4])], 0, []) ∧
    ((digest.Write demoEnv (New 4) [1, 2, 3, 4]).state.bind
        (fun d => digest.workers demoEnv (digest.Reset d))).map
        (fun d => (d.queued, d.dex, d.tree.keysBelow 4)) = some ([], 0, [0, 1]) ∧
    ((digest.Write demoEnv (New 4) [1, 2, 3, 4]).andThen
        (fun d => digest.Sum demoEnv (digest.Reset d) [])).state.map
        (fun d => (d.queued, d.dex, d.tree.keysBelow 4)) = some ([], 1, [0, 1]) ∧
    (∀ d, ((digest.Write demoEnv (New 4) [1, 2, 3, 4]).andThen
        (fun d => digest.Sum demoEnv (digest.Reset d) [])).state = some d →
      ReachableAny demoEnv 4 d) := by
  refine ⟨by decide, by decide, by decide, ?_⟩
  · intro d hd
    have hw : digest.Write demoEnv (New 4) [1, 2, 3, 4] = Outcome.ret (4, none)
        { New 4 with dex := 2, ch := [{ dex := 0, bytes := [1, 2] }, { dex := 1, bytes := [3, 4] }] } :=
      rfl
    rw [hw] at hd
    simp only [Outcome.andThen] at hd
    have h1 : ReachableAny demoEnv 4
        { New 4 with dex := 2, ch := [{ dex := 0, bytes := [1, 2] }, { dex := 1, bytes := [3, 4] }] } :=
      ReachableAny.write (New 4) _ [1, 2, 3, 4] (4, none) ReachableAny.new hw
    have h2 := ReachableAny.reset _ h1
    cases hs : digest.Sum demoEnv (digest.Reset
        { New 4 with dex := 2, ch := [{ dex := 0, bytes := [1, 2] }, { dex := 1, bytes := [3, 4] }] }) [] with
    | ret out d1 =>
      rw [hs] at hd
      simp only [Outcome.state, Option.some.injEq] at hd
      rw [← hd]
      exact ReachableAny.sum _ _ [] out h2 hs
    | panicked p d1 =>
      have hp : (digest.Sum demoEnv (digest.Reset
          { New 4 with dex := 2, ch := [{ dex := 0, bytes := [1, 2] }, { dex := 1, bytes := [3, 4] }] })
          []).panic = none := by decide
      rw [hs] at hp
      exact absurd hp (by simp [Outcome.panic])
    | blocked =>
      rw [hs] at hd
      exact absurd hd (by simp [Outcome.state])

end RatHash
